import Mathlib

/-!
Verification of the group/reduce/aggregate/merge engine and the
predicate-selection engine of the petl transform core
(petl/transform/reductions.py and petl/transform/selects.py).

A table is a header (field names) plus data rows; cells are dynamically
typed Python values, modelled by the type Val (None, int, str, and
sequences).  The collaborators that live outside the two source modules
(petl.util.rowgroupby, petl.util.iterpeek, petl.util.asindices,
petl.transform.sorts.sort, petl.comparison.Comparable) are modelled from
the specification and marked as such in their doc comments.
-/

namespace Petl

/-- Python value stored in a table cell: None, an int, a str, or a
sequence (list/tuple) of values.  Booleans and floats are not needed by
any property considered here. -/
inductive Val where
  | vnone
  | vint (i : Int)
  | vstr (s : String)
  | vlist (l : List Val)

mutual

/-- Python value equality (the operators == and !=) on Val. -/
def Val.beq : Val → Val → Bool
  | .vnone, .vnone => true
  | .vint a, .vint b => a == b
  | .vstr a, .vstr b => a == b
  | .vlist xs, .vlist ys => Val.beqList xs ys
  | _, _ => false

/-- Elementwise equality of value sequences. -/
def Val.beqList : List Val → List Val → Bool
  | [], [] => true
  | x :: xs, y :: ys => Val.beq x y && Val.beqList xs ys
  | _, _ => false

end

mutual

theorem Val.beq_iff : ∀ a b : Val, Val.beq a b = true ↔ a = b
  | .vnone, .vnone => by simp [Val.beq]
  | .vnone, .vint _ => by simp [Val.beq]
  | .vnone, .vstr _ => by simp [Val.beq]
  | .vnone, .vlist _ => by simp [Val.beq]
  | .vint _, .vnone => by simp [Val.beq]
  | .vint a, .vint b => by simp [Val.beq]
  | .vint _, .vstr _ => by simp [Val.beq]
  | .vint _, .vlist _ => by simp [Val.beq]
  | .vstr _, .vnone => by simp [Val.beq]
  | .vstr _, .vint _ => by simp [Val.beq]
  | .vstr a, .vstr b => by simp [Val.beq]
  | .vstr _, .vlist _ => by simp [Val.beq]
  | .vlist _, .vnone => by simp [Val.beq]
  | .vlist _, .vint _ => by simp [Val.beq]
  | .vlist _, .vstr _ => by simp [Val.beq]
  | .vlist xs, .vlist ys => by
      simp only [Val.beq, Val.vlist.injEq]
      exact Val.beqList_iff xs ys

theorem Val.beqList_iff : ∀ xs ys : List Val, Val.beqList xs ys = true ↔ xs = ys
  | [], [] => by simp [Val.beqList]
  | [], _ :: _ => by simp [Val.beqList]
  | _ :: _, [] => by simp [Val.beqList]
  | x :: xs, y :: ys => by
      simp only [Val.beqList, Bool.and_eq_true, List.cons.injEq]
      exact and_congr (Val.beq_iff x y) (Val.beqList_iff xs ys)

end

instance : DecidableEq Val := fun a b =>
  decidable_of_iff (Val.beq a b = true) (Val.beq_iff a b)

theorem charToNat_inj {a b : Char} (h : a.toNat = b.toNat) : a = b :=
  Char.eq_of_val_eq (UInt32.eq_of_val_eq (Fin.eq_of_val_eq h))

/-- Lexicographic comparison of character lists (string ordering written
with structural recursion so that it evaluates inside the kernel). -/
def strLeAux : List Char → List Char → Bool
  | [], _ => true
  | _ :: _, [] => false
  | a :: as, b :: bs => if a = b then strLeAux as bs else decide (a.toNat < b.toNat)

/-- String ordering used by the sort collaborator. -/
def strLe (x y : String) : Bool := strLeAux x.data y.data

mutual

/-- Modelled from the spec: the total ordering of Python values used by
the external sort collaborator and by petl.comparison.Comparable (None
orders before numbers, numbers before strings, strings before sequences;
sequences compare lexicographically).  valLe a b means a orders no later
than b. -/
def valLe : Val → Val → Bool
  | .vnone, _ => true
  | _, .vnone => false
  | .vint a, .vint b => decide (a ≤ b)
  | .vint _, _ => true
  | _, .vint _ => false
  | .vstr a, .vstr b => strLe a b
  | .vstr _, _ => true
  | _, .vstr _ => false
  | .vlist xs, .vlist ys => valListLe xs ys

/-- Lexicographic ordering of value sequences. -/
def valListLe : List Val → List Val → Bool
  | [], _ => true
  | _ :: _, [] => false
  | x :: xs, y :: ys => if x = y then valListLe xs ys else valLe x y

end

/-- Strict version of valLe. -/
def valLt (a b : Val) : Bool := !(valLe b a)

theorem strLeAux_total : ∀ x y, strLeAux x y = true ∨ strLeAux y x = true
  | [], _ => Or.inl rfl
  | _ :: _, [] => Or.inr rfl
  | a :: as, b :: bs => by
      by_cases h : a = b
      · subst h
        simpa [strLeAux] using strLeAux_total as bs
      · have hne : ¬ b = a := fun hba => h hba.symm
        rcases Nat.lt_or_ge a.toNat b.toNat with hlt | hge
        · exact Or.inl (by simp [strLeAux, h, hlt])
        · have : b.toNat < a.toNat := by
            rcases Nat.lt_or_ge b.toNat a.toNat with h1 | h1
            · exact h1
            · exact absurd (charToNat_inj (by omega)) hne
          exact Or.inr (by simp [strLeAux, hne, this])

theorem strLeAux_antisymm :
    ∀ x y, strLeAux x y = true → strLeAux y x = true → x = y
  | [], [], _, _ => rfl
  | [], _ :: _, _, h => by simp [strLeAux] at h
  | _ :: _, [], h, _ => by simp [strLeAux] at h
  | a :: as, b :: bs, h1, h2 => by
      by_cases h : a = b
      · subst h
        simp only [strLeAux, if_pos rfl] at h1 h2
        exact congrArg (a :: ·) (strLeAux_antisymm as bs h1 h2)
      · have hne : ¬ b = a := fun hba => h hba.symm
        simp only [strLeAux, if_neg h, decide_eq_true_eq] at h1
        simp only [strLeAux, if_neg hne, decide_eq_true_eq] at h2
        exfalso
        omega

theorem strLeAux_trans :
    ∀ x y z, strLeAux x y = true → strLeAux y z = true → strLeAux x z = true
  | [], _, _, _, _ => rfl
  | _ :: _, [], _, h, _ => by simp [strLeAux] at h
  | _ :: _, _ :: _, [], _, h => by simp [strLeAux] at h
  | a :: as, b :: bs, c :: cs, h1, h2 => by
      by_cases hab : a = b
      · subst hab
        by_cases hac : a = c
        · subst hac
          simp only [strLeAux, if_pos rfl] at h1 h2 ⊢
          exact strLeAux_trans as bs cs h1 h2
        · simpa [strLeAux, hac] using h2
      · by_cases hbc : b = c
        · subst hbc
          simpa [strLeAux, hab] using h1
        · simp only [strLeAux, if_neg hab, decide_eq_true_eq] at h1
          simp only [strLeAux, if_neg hbc, decide_eq_true_eq] at h2
          have hac : ¬ a = c := by
            intro h
            subst h
            omega
          simp only [strLeAux, if_neg hac, decide_eq_true_eq]
          omega

theorem strLe_total (x y : String) : strLe x y = true ∨ strLe y x = true :=
  strLeAux_total x.data y.data

theorem strLe_antisymm (x y : String) :
    strLe x y = true → strLe y x = true → x = y := by
  intro h1 h2
  cases x
  cases y
  exact congrArg String.mk (strLeAux_antisymm _ _ h1 h2)

theorem strLe_trans (x y z : String) :
    strLe x y = true → strLe y z = true → strLe x z = true :=
  strLeAux_trans x.data y.data z.data

mutual

theorem valLe_total : ∀ a b : Val, valLe a b = true ∨ valLe b a = true
  | .vnone, b => Or.inl (by cases b <;> rfl)
  | .vint _, .vnone => Or.inr rfl
  | .vint a, .vint b => by
      rcases Int.le_total a b with h | h
      · exact Or.inl (by simp [valLe, h])
      · exact Or.inr (by simp [valLe, h])
  | .vint _, .vstr _ => Or.inl rfl
  | .vint _, .vlist _ => Or.inl rfl
  | .vstr _, .vnone => Or.inr rfl
  | .vstr _, .vint _ => Or.inr rfl
  | .vstr a, .vstr b => strLe_total a b
  | .vstr _, .vlist _ => Or.inl rfl
  | .vlist _, .vnone => Or.inr rfl
  | .vlist _, .vint _ => Or.inr rfl
  | .vlist _, .vstr _ => Or.inr rfl
  | .vlist xs, .vlist ys => valListLe_total xs ys

theorem valListLe_total :
    ∀ xs ys : List Val, valListLe xs ys = true ∨ valListLe ys xs = true
  | [], _ => Or.inl rfl
  | _ :: _, [] => Or.inr rfl
  | x :: xs, y :: ys => by
      by_cases h : x = y
      · subst h
        simpa [valListLe] using valListLe_total xs ys
      · have hne : ¬ y = x := fun hyx => h hyx.symm
        simpa [valListLe, h, hne] using valLe_total x y

end

mutual

theorem valLe_antisymm :
    ∀ a b : Val, valLe a b = true → valLe b a = true → a = b
  | .vnone, .vnone, _, _ => rfl
  | .vnone, .vint _, _, h => by simp [valLe] at h
  | .vnone, .vstr _, _, h => by simp [valLe] at h
  | .vnone, .vlist _, _, h => by simp [valLe] at h
  | .vint _, .vnone, h, _ => by simp [valLe] at h
  | .vint a, .vint b, h1, h2 => by
      simp only [valLe, decide_eq_true_eq] at h1 h2
      exact congrArg Val.vint (le_antisymm h1 h2)
  | .vint _, .vstr _, _, h => by simp [valLe] at h
  | .vint _, .vlist _, _, h => by simp [valLe] at h
  | .vstr _, .vnone, h, _ => by simp [valLe] at h
  | .vstr _, .vint _, h, _ => by simp [valLe] at h
  | .vstr a, .vstr b, h1, h2 => congrArg Val.vstr (strLe_antisymm a b h1 h2)
  | .vstr _, .vlist _, _, h => by simp [valLe] at h
  | .vlist _, .vnone, h, _ => by simp [valLe] at h
  | .vlist _, .vint _, h, _ => by simp [valLe] at h
  | .vlist _, .vstr _, h, _ => by simp [valLe] at h
  | .vlist xs, .vlist ys, h1, h2 =>
      congrArg Val.vlist (valListLe_antisymm xs ys h1 h2)

theorem valListLe_antisymm :
    ∀ xs ys : List Val, valListLe xs ys = true → valListLe ys xs = true → xs = ys
  | [], [], _, _ => rfl
  | [], _ :: _, _, h => by simp [valListLe] at h
  | _ :: _, [], h, _ => by simp [valListLe] at h
  | x :: xs, y :: ys, h1, h2 => by
      by_cases h : x = y
      · subst h
        simp only [valListLe, if_pos rfl] at h1 h2
        exact congrArg (x :: ·) (valListLe_antisymm xs ys h1 h2)
      · have hne : ¬ y = x := fun hyx => h hyx.symm
        simp only [valListLe, if_neg h] at h1
        simp only [valListLe, if_neg hne] at h2
        exact absurd (valLe_antisymm x y h1 h2) h

end

mutual

theorem valLe_trans :
    ∀ a b c : Val, valLe a b = true → valLe b c = true → valLe a c = true
  | .vnone, _, c, _, _ => by cases c <;> rfl
  | .vint _, .vnone, _, h, _ => by simp [valLe] at h
  | .vint _, .vint _, .vnone, _, h => by simp [valLe] at h
  | .vint _, .vstr _, .vnone, _, h => by simp [valLe] at h
  | .vint _, .vlist _, .vnone, _, h => by simp [valLe] at h
  | .vint a, .vint b, .vint c, h1, h2 => by
      simp only [valLe, decide_eq_true_eq] at h1 h2 ⊢
      exact le_trans h1 h2
  | .vint _, .vint _, .vstr _, _, _ => rfl
  | .vint _, .vint _, .vlist _, _, _ => rfl
  | .vint _, .vstr _, c, _, h => by cases c <;> simp [valLe] at h ⊢
  | .vint _, .vlist _, .vint _, _, h => by simp [valLe] at h
  | .vint _, .vlist _, .vstr _, _, h => by simp [valLe] at h
  | .vint _, .vlist _, .vlist _, _, _ => rfl
  | .vstr _, .vnone, _, h, _ => by simp [valLe] at h
  | .vstr _, .vint _, _, h, _ => by simp [valLe] at h
  | .vstr _, .vstr _, .vnone, _, h => by simp [valLe] at h
  | .vstr _, .vstr _, .vint _, _, h => by simp [valLe] at h
  | .vstr a, .vstr b, .vstr c, h1, h2 => strLe_trans a b c h1 h2
  | .vstr _, .vstr _, .vlist _, _, _ => rfl
  | .vstr _, .vlist _, .vnone, _, h => by simp [valLe] at h
  | .vstr _, .vlist _, .vint _, _, h => by simp [valLe] at h
  | .vstr _, .vlist _, .vstr _, _, h => by simp [valLe] at h
  | .vstr _, .vlist _, .vlist _, _, _ => rfl
  | .vlist _, .vnone, _, h, _ => by simp [valLe] at h
  | .vlist _, .vint _, _, h, _ => by simp [valLe] at h
  | .vlist _, .vstr _, _, h, _ => by simp [valLe] at h
  | .vlist _, .vlist _, .vnone, _, h => by simp [valLe] at h
  | .vlist _, .vlist _, .vint _, _, h => by simp [valLe] at h
  | .vlist _, .vlist _, .vstr _, _, h => by simp [valLe] at h
  | .vlist xs, .vlist ys, .vlist zs, h1, h2 => valListLe_trans xs ys zs h1 h2

theorem valListLe_trans :
    ∀ xs ys zs : List Val,
      valListLe xs ys = true → valListLe ys zs = true → valListLe xs zs = true
  | [], _, _, _, _ => rfl
  | _ :: _, [], _, h, _ => by simp [valListLe] at h
  | _ :: _, _ :: _, [], _, h => by simp [valListLe] at h
  | x :: xs, y :: ys, z :: zs, h1, h2 => by
      by_cases hxy : x = y
      · subst hxy
        by_cases hxz : x = z
        · subst hxz
          simp only [valListLe, if_pos rfl] at h1 h2 ⊢
          exact valListLe_trans xs ys zs h1 h2
        · simpa [valListLe, hxz] using h2
      · by_cases hyz : y = z
        · subst hyz
          simpa [valListLe, hxy] using h1
        · simp only [valListLe, if_neg hxy] at h1
          simp only [valListLe, if_neg hyz] at h2
          have hxz : ¬ x = z := by
            intro h
            subst h
            exact hxy (valLe_antisymm x y h1 h2)
          simp only [valListLe, if_neg hxz]
          exact valLe_trans x y z h1 h2

end

theorem valLe_refl (a : Val) : valLe a a = true := by
  rcases valLe_total a a with h | h <;> exact h

theorem valLe_of_not_valLe {a b : Val} (h : ¬ valLe a b = true) :
    valLe b a = true := by
  rcases valLe_total a b with h1 | h1
  · exact absurd h1 h
  · exact h1

theorem valLt_iff (a b : Val) :
    valLt a b = true ↔ valLe a b = true ∧ a ≠ b := by
  constructor
  · intro h
    have hba : ¬ valLe b a = true := by
      simpa [valLt] using h
    refine ⟨valLe_of_not_valLe hba, ?_⟩
    intro he
    subst he
    exact hba (valLe_refl a)
  · intro ⟨hle, hne⟩
    simp only [valLt, Bool.not_eq_true']
    by_contra h
    simp only [Bool.not_eq_false] at h
    exact hne (valLe_antisymm a b hle h)

/-- A data row: an ordered sequence of cell values (rows of one table may
have differing lengths). -/
abbrev Row := List Val

/-- A table: a header of field names followed by data rows.  Iterating a
petl table always yields the header first and then the data rows; the
structure separates the two phases of that protocol. -/
structure Table where
  header : List String
  rows : List Row
deriving DecidableEq

/-- A grouping key: a single field name, or a callable deriving a key
value from a row.  (Compound field-tuple keys exist in petl as well; no
property below depends on them.) -/
inductive Key where
  | field (f : String)
  | fn (g : Row → Val)

/-- Modelled from the spec: key-value extraction used by the grouping
primitive and the sort collaborator.  A field key reads the cell at the
field index from the header; an index beyond the row length is treated
as a missing trailing value (spec section 3). -/
def keyGet (key : Key) (hdr : List String) (row : Row) : Val :=
  match key with
  | .field f => row.getD (hdr.indexOf f) Val.vnone
  | .fn g => g row

/-- Insert x into l immediately before the first element y with
le x y; equal elements therefore stay behind elements inserted later,
which makes the sort below stable. -/
def insertLe {α : Type} (le : α → α → Bool) (x : α) : List α → List α
  | [] => [x]
  | y :: ys => if le x y then x :: y :: ys else y :: insertLe le x ys

/-- Modelled from the spec: a stable comparison sort, standing in for the
external sort collaborator (sort(table, key, ...) of petl.transform.sorts,
which relies on the stable Python sorted builtin). -/
def insSort {α : Type} (le : α → α → Bool) : List α → List α
  | [] => []
  | x :: xs => insertLe le x (insSort le xs)

theorem mem_insertLe {α : Type} (le : α → α → Bool) (x a : α) :
    ∀ l : List α, a ∈ insertLe le x l ↔ a = x ∨ a ∈ l := by
  intro l
  induction l with
  | nil => simp [insertLe]
  | cons y ys ih =>
      by_cases h : le x y
      · simp [insertLe, h]
      · simp only [insertLe, if_neg h, List.mem_cons, ih]
        tauto

theorem insertLe_perm {α : Type} (le : α → α → Bool) (x : α) :
    ∀ l : List α, List.Perm (insertLe le x l) (x :: l) := by
  intro l
  induction l with
  | nil => simp [insertLe]
  | cons y ys ih =>
      by_cases h : le x y
      · simp [insertLe, h]
      · simp only [insertLe, if_neg h]
        exact (ih.cons y).trans (List.Perm.swap x y ys)

theorem insSort_perm {α : Type} (le : α → α → Bool) :
    ∀ l : List α, List.Perm (insSort le l) l := by
  intro l
  induction l with
  | nil => simp [insSort]
  | cons x xs ih =>
      exact (insertLe_perm le x (insSort le xs)).trans (ih.cons x)

theorem mem_insSort {α : Type} (le : α → α → Bool) (l : List α) (a : α) :
    a ∈ insSort le l ↔ a ∈ l :=
  (insSort_perm le l).mem_iff

theorem pairwise_insertLe {α : Type} (le : α → α → Bool)
    (total : ∀ a b : α, le a b = true ∨ le b a = true)
    (trans : ∀ a b c : α, le a b = true → le b c = true → le a c = true)
    (x : α) :
    ∀ l : List α, List.Pairwise (fun a b => le a b = true) l →
      List.Pairwise (fun a b => le a b = true) (insertLe le x l) := by
  intro l hl
  induction l with
  | nil => simp [insertLe]
  | cons y ys ih =>
      rcases List.pairwise_cons.mp hl with ⟨hy, hys⟩
      by_cases h : le x y
      · simp only [insertLe, if_pos h]
        refine List.pairwise_cons.mpr ⟨?_, hl⟩
        intro z hz
        rcases List.mem_cons.mp hz with hz | hz
        · exact hz ▸ h
        · exact trans x y z h (hy z hz)
      · simp only [insertLe, if_neg h]
        refine List.pairwise_cons.mpr ⟨?_, ih hys⟩
        intro z hz
        rcases (mem_insertLe le x z ys).mp hz with hz | hz
        · rcases total x y with h1 | h1
          · exact absurd h1 h
          · rw [hz]
            exact h1
        · exact hy z hz

theorem pairwise_insSort {α : Type} (le : α → α → Bool)
    (total : ∀ a b : α, le a b = true ∨ le b a = true)
    (trans : ∀ a b c : α, le a b = true → le b c = true → le a c = true)
    (l : List α) :
    List.Pairwise (fun a b => le a b = true) (insSort le l) := by
  induction l with
  | nil => simp [insSort]
  | cons x xs ih => exact pairwise_insertLe le total trans x (insSort le xs) ih

theorem filter_insertLe {α : Type} (le : α → α → Bool) (p : α → Bool)
    (hp : ∀ a b : α, p a = true → p b = true → le a b = true) (x : α) :
    ∀ l : List α,
      (insertLe le x l).filter p =
        if p x then x :: l.filter p else l.filter p := by
  intro l
  induction l with
  | nil => by_cases h : p x <;> simp [insertLe, h]
  | cons y ys ih =>
      by_cases h : le x y
      · by_cases hx : p x <;> simp [insertLe, h, List.filter_cons, hx]
      · by_cases hx : p x
        · have hy : ¬ p y = true := fun hy => h (hp x y hx hy)
          simp only [insertLe, if_neg h, List.filter_cons, ih]
          simp [hy, hx]
        · simp only [insertLe, if_neg h, List.filter_cons, ih]
          by_cases hy : p y <;> simp [hy, hx]

/-- Stability of the sort: elements that are mutually tied under the
comparison (here: all elements satisfying p, a key-equality predicate)
keep their relative input order. -/
theorem filter_insSort {α : Type} (le : α → α → Bool) (p : α → Bool)
    (hp : ∀ a b : α, p a = true → p b = true → le a b = true)
    (l : List α) :
    (insSort le l).filter p = l.filter p := by
  induction l with
  | nil => simp [insSort]
  | cons x xs ih =>
      simp only [insSort, filter_insertLe le p hp, ih, List.filter_cons]

theorem valLt_irrefl (a : Val) : valLt a a = false := by
  simp [valLt, valLe_refl]

theorem valLt_ne {a b : Val} (h : valLt a b = true) : a ≠ b :=
  ((valLt_iff a b).mp h).2

theorem valLt_of_le_ne {a b : Val} (hle : valLe a b = true) (hne : a ≠ b) :
    valLt a b = true :=
  (valLt_iff a b).mpr ⟨hle, hne⟩

theorem valLe_valLt_trans {a b c : Val} (h1 : valLe a b = true)
    (h2 : valLt b c = true) : valLt a c = true := by
  have hcb : ¬ valLe c b = true := by
    simpa [valLt] using h2
  have hca : ¬ valLe c a = true := fun hca => hcb (valLe_trans c a b hca h1)
  simpa [valLt] using hca

/-- Modelled from the spec: the grouping primitive.  Partitions a stream
assumed already ordered by key into maximal contiguous runs of rows with
equal key value, yielding (key, run) pairs (petl.util.rowgroupby with
the groups materialized).  Written by structural recursion: an element
joins the first run of the grouped tail when its key matches, else it
opens a new run. -/
def groupRuns {α : Type} (f : α → Val) : List α → List (Val × List α)
  | [] => []
  | r :: rs =>
      match groupRuns f rs with
      | [] => [(f r, [r])]
      | (k, g) :: rest =>
          if f r = k then (k, r :: g) :: rest
          else (f r, [r]) :: (k, g) :: rest

theorem groupRuns_nil_iff {α : Type} (f : α → Val) (l : List α) :
    groupRuns f l = [] ↔ l = [] := by
  cases l with
  | nil => simp [groupRuns]
  | cons r rs =>
      simp only [groupRuns]
      cases groupRuns f rs with
      | nil => simp
      | cons kg rest =>
          rcases kg with ⟨k, g⟩
          by_cases h : f r = k <;> simp [h]

theorem groupRuns_join {α : Type} (f : α → Val) (l : List α) :
    ((groupRuns f l).map Prod.snd).flatten = l := by
  induction l with
  | nil => rfl
  | cons r rs ih =>
      simp only [groupRuns]
      cases hg : groupRuns f rs with
      | nil =>
          have hrs : rs = [] := (groupRuns_nil_iff f rs).mp hg
          subst hrs
          rfl
      | cons kg rest =>
          rcases kg with ⟨k, g⟩
          rw [hg] at ih
          by_cases h : f r = k
          · simp only [if_pos h, List.map_cons, List.flatten_cons] at ih ⊢
            rw [List.cons_append, ih]
          · simp only [if_neg h, List.map_cons, List.flatten_cons] at ih ⊢
            rw [List.singleton_append, ih]

theorem groupRuns_nonempty {α : Type} (f : α → Val) (l : List α) :
    ∀ kg ∈ groupRuns f l, kg.2 ≠ [] := by
  induction l with
  | nil => simp [groupRuns]
  | cons r rs ih =>
      intro kg hkg
      simp only [groupRuns] at hkg
      cases hg : groupRuns f rs with
      | nil =>
          rw [hg] at hkg
          simp only [List.mem_singleton] at hkg
          subst hkg
          simp
      | cons kg0 rest =>
          rcases kg0 with ⟨k, g⟩
          rw [hg] at hkg
          dsimp only [] at hkg
          by_cases h : f r = k
          · rw [if_pos h] at hkg
            rcases List.mem_cons.mp hkg with hkg | hkg
            · subst hkg; simp
            · exact ih kg (hg ▸ List.mem_cons_of_mem _ hkg)
          · rw [if_neg h] at hkg
            rcases List.mem_cons.mp hkg with hkg | hkg
            · subst hkg; simp
            · exact ih kg (hg ▸ hkg)

theorem groupRuns_key_eq {α : Type} (f : α → Val) (l : List α) :
    ∀ kg ∈ groupRuns f l, ∀ a ∈ kg.2, f a = kg.1 := by
  induction l with
  | nil => simp [groupRuns]
  | cons r rs ih =>
      intro kg hkg a ha
      simp only [groupRuns] at hkg
      cases hg : groupRuns f rs with
      | nil =>
          rw [hg] at hkg
          simp only [List.mem_singleton] at hkg
          subst hkg
          simp only [List.mem_singleton] at ha
          subst ha
          rfl
      | cons kg0 rest =>
          rcases kg0 with ⟨k, g⟩
          rw [hg] at hkg
          dsimp only [] at hkg
          by_cases h : f r = k
          · rw [if_pos h] at hkg
            rcases List.mem_cons.mp hkg with hkg | hkg
            · subst hkg
              rcases List.mem_cons.mp ha with ha | ha
              · subst ha; exact h
              · exact ih (k, g) (hg ▸ List.mem_cons_self _ _) a ha
            · exact ih kg (hg ▸ List.mem_cons_of_mem _ hkg) a ha
          · rw [if_neg h] at hkg
            rcases List.mem_cons.mp hkg with hkg | hkg
            · subst hkg
              simp only [List.mem_singleton] at ha
              subst ha
              rfl
            · exact ih kg (hg ▸ hkg) a ha

theorem groupRuns_keys_mem {α : Type} (f : α → Val) (l : List α) :
    ∀ k ∈ (groupRuns f l).map Prod.fst, ∃ a ∈ l, f a = k := by
  intro k hk
  rcases List.mem_map.mp hk with ⟨kg, hkg, hfst⟩
  have hne := groupRuns_nonempty f l kg hkg
  cases hg : kg.2 with
  | nil => exact absurd hg hne
  | cons a g0 =>
      have ha : a ∈ kg.2 := hg ▸ List.mem_cons_self a g0
      have hal : a ∈ l := by
        rw [← groupRuns_join f l]
        exact List.mem_flatten.mpr ⟨kg.2, List.mem_map_of_mem Prod.snd hkg, ha⟩
      exact ⟨a, hal, hfst ▸ groupRuns_key_eq f l kg hkg a ha⟩

theorem groupRuns_elem_key {α : Type} (f : α → Val) (l : List α) :
    ∀ a ∈ l, f a ∈ (groupRuns f l).map Prod.fst := by
  intro a ha
  rw [← groupRuns_join f l] at ha
  rcases List.mem_flatten.mp ha with ⟨s, hs, has⟩
  rcases List.mem_map.mp hs with ⟨kg, hkg, hsnd⟩
  have heq := groupRuns_key_eq f l kg hkg a (hsnd ▸ has)
  exact heq ▸ List.mem_map_of_mem Prod.fst hkg

/-- The run keys are exactly the key values present in the stream. -/
theorem groupRuns_keys_iff {α : Type} (f : α → Val) (l : List α) (v : Val) :
    v ∈ (groupRuns f l).map Prod.fst ↔ v ∈ l.map f := by
  constructor
  · intro hv
    rcases groupRuns_keys_mem f l v hv with ⟨a, ha, hfa⟩
    exact hfa ▸ List.mem_map_of_mem f ha
  · intro hv
    rcases List.mem_map.mp hv with ⟨a, ha, hfa⟩
    exact hfa ▸ groupRuns_elem_key f l a ha

/-- In a key-sorted stream the run keys are strictly increasing. -/
theorem groupRuns_keys_pairwise_lt {α : Type} (f : α → Val) (l : List α)
    (hs : List.Pairwise (fun a b => valLe (f a) (f b) = true) l) :
    List.Pairwise (fun k1 k2 => valLt k1 k2 = true)
      ((groupRuns f l).map Prod.fst) := by
  induction l with
  | nil => simp [groupRuns]
  | cons r rs ih =>
      have hr : ∀ z ∈ rs, valLe (f r) (f z) = true := (List.pairwise_cons.mp hs).1
      have hrs := (List.pairwise_cons.mp hs).2
      have ihp := ih hrs
      simp only [groupRuns]
      cases hg : groupRuns f rs with
      | nil => simp
      | cons kg0 rest =>
          rcases kg0 with ⟨k, g⟩
          rw [hg] at ihp
          dsimp only []
          have hkeysle : ∀ k2 ∈ ((k, g) :: rest).map Prod.fst,
              valLe (f r) k2 = true := by
            intro k2 hk2
            rcases groupRuns_keys_mem f rs k2 (hg ▸ hk2) with ⟨z, hz, hfz⟩
            exact hfz ▸ hr z hz
          by_cases h : f r = k
          · rw [if_pos h]
            simpa using ihp
          · rw [if_neg h]
            simp only [List.map_cons] at ihp ⊢
            refine List.pairwise_cons.mpr ⟨?_, ihp⟩
            intro k2 hk2
            rcases List.mem_cons.mp hk2 with hk2 | hk2
            · exact hk2 ▸ valLt_of_le_ne (hkeysle k (by simp)) h
            · have hlek : valLe (f r) k = true := hkeysle k (by simp)
              have hkk2 : valLt k k2 = true :=
                (List.pairwise_cons.mp ihp).1 k2 hk2
              exact valLe_valLt_trans hlek hkk2

/-- The run keys of a key-sorted stream are pairwise distinct. -/
theorem groupRuns_keys_nodup {α : Type} (f : α → Val) (l : List α)
    (hs : List.Pairwise (fun a b => valLe (f a) (f b) = true) l) :
    ((groupRuns f l).map Prod.fst).Nodup :=
  (groupRuns_keys_pairwise_lt f l hs).imp (fun h => valLt_ne h)

/-- In a key-sorted stream every run is the filter of the whole stream
at its key value: one run collects all rows with that key. -/
theorem groupRuns_eq_filter {α : Type} (f : α → Val) (l : List α)
    (hs : List.Pairwise (fun a b => valLe (f a) (f b) = true) l) :
    ∀ kg ∈ groupRuns f l, kg.2 = l.filter (fun a => f a == kg.1) := by
  induction l with
  | nil => simp [groupRuns]
  | cons r rs ih =>
      have hrs := (List.pairwise_cons.mp hs).2
      have ihf := ih hrs
      have hplt := groupRuns_keys_pairwise_lt f (r :: rs) hs
      intro kg hkg
      simp only [groupRuns] at hkg hplt
      cases hg : groupRuns f rs with
      | nil =>
          have hrsnil : rs = [] := (groupRuns_nil_iff f rs).mp hg
          rw [hg] at hkg
          simp only [List.mem_singleton] at hkg
          subst hkg
          subst hrsnil
          simp
      | cons kg0 rest =>
          rcases kg0 with ⟨k, g⟩
          rw [hg] at hkg hplt
          dsimp only [] at hkg hplt
          by_cases h : f r = k
          · rw [if_pos h] at hkg hplt
            rw [List.map_cons] at hplt
            rcases List.mem_cons.mp hkg with hkg | hkg
            · subst hkg
              show r :: g = (r :: rs).filter (fun a => f a == k)
              rw [List.filter_cons_of_pos (by simp [h])]
              have hgf : g = rs.filter (fun a => f a == k) := by
                simpa using ihf (k, g) (hg ▸ List.mem_cons_self _ _)
              rw [← hgf]
            · have hk1 : valLt k kg.1 = true :=
                (List.pairwise_cons.mp hplt).1 kg.1 (List.mem_map_of_mem Prod.fst hkg)
              have hne2 : ¬ f r = kg.1 := by
                rw [h]
                exact valLt_ne hk1
              rw [List.filter_cons_of_neg (by simpa using hne2)]
              exact ihf kg (hg ▸ List.mem_cons_of_mem _ hkg)
          · rw [if_neg h] at hkg hplt
            rw [List.map_cons] at hplt
            have hp := List.pairwise_cons.mp hplt
            rcases List.mem_cons.mp hkg with hkg | hkg
            · subst hkg
              show [r] = (r :: rs).filter (fun a => f a == f r)
              rw [List.filter_cons_of_pos (by simp)]
              have hnil : rs.filter (fun a => f a == f r) = [] := by
                apply List.filter_eq_nil_iff.mpr
                intro z hz
                have hzkey : f z ∈ ((k, g) :: rest).map Prod.fst :=
                  hg ▸ groupRuns_elem_key f rs z hz
                have hlt : valLt (f r) (f z) = true := hp.1 (f z) hzkey
                simpa using fun he => valLt_ne hlt he.symm
              rw [hnil]
            · have hkey : kg.1 ∈ ((k, g) :: rest).map Prod.fst :=
                List.mem_map_of_mem Prod.fst hkg
              have hlt : valLt (f r) kg.1 = true := hp.1 kg.1 hkey
              rw [List.filter_cons_of_neg (by simpa using valLt_ne hlt)]
              exact ihf kg (hg ▸ hkg)

/-- Modelled from the spec: the grouping primitive rowgroupby of
petl.util applied to a table: the header is consumed to resolve the key,
then the data rows are partitioned into maximal contiguous runs of equal
key value. -/
def rowgroupby (t : Table) (key : Key) : List (Val × List Row) :=
  groupRuns (keyGet key t.header) t.rows

/-- Modelled from the spec: the value extraction of the grouping
primitive: the cell of the given value field (an index beyond the row
length reads as missing), or the whole row as a sequence value when no
value field is given. -/
def valGet (value : Option String) (hdr : List String) (row : Row) : Val :=
  match value with
  | some v => row.getD (hdr.indexOf v) Val.vnone
  | none => Val.vlist row

/-- Modelled from the spec: rowgroupby with a value specifier: each run
is mapped to the sequence of extracted values of its rows. -/
def rowgroupbyv (t : Table) (key : Key) (value : Option String) :
    List (Val × List Val) :=
  (rowgroupby t key).map (fun kg => (kg.1, kg.2.map (valGet value t.header)))

/-- Modelled from the spec: the external sort collaborator
(petl.transform.sorts.sort): a stable sort of the data rows by the key
value; reverse gives the stable descending variant. -/
def sort (t : Table) (key : Key) (reverse : Bool) : Table :=
  Table.mk t.header
    (if reverse then
      insSort (fun a b => valLe (keyGet key t.header b) (keyGet key t.header a)) t.rows
    else
      insSort (fun a b => valLe (keyGet key t.header a) (keyGet key t.header b)) t.rows)

/-- iterrowreduce of reductions.py: emits the given fields as header if
provided, otherwise the peeked source header; then one output row per
contiguous group, the row returned by the reducer for (key, group rows). -/
def iterrowreduce (source : Table) (key : Key)
    (reducer : Val → List Row → Row) (fields : Option (List String)) : Table :=
  Table.mk (fields.getD source.header)
    ((rowgroupby source key).map (fun kg => reducer kg.1 kg.2))

/-- RowReduceView: sorts the source by the key unless presorted, then
iterates via iterrowreduce. -/
def rowreduce (table : Table) (key : Key) (reducer : Val → List Row → Row)
    (fields : Option (List String)) (presorted : Bool) : Table :=
  iterrowreduce (if presorted then table else sort table key false) key
    reducer fields

/-- A pull iterator over a stream, instrumented with a pushback buffer
and a count of the elements pulled from the underlying source; used to
state that peeking the header leaves a stream that is traversed only
once. -/
structure PIter (α : Type) where
  buf : List α
  src : List α
  reads : Nat

/-- Pull the next element: from the pushback buffer if one is buffered
(not counted as a source read), else from the source (counted). -/
def pnext {α : Type} : PIter α → Option (α × PIter α)
  | PIter.mk (b :: bs) s r => some (b, PIter.mk bs s r)
  | PIter.mk [] (x :: xs) r => some (x, PIter.mk [] xs (r + 1))
  | PIter.mk [] [] _ => none

/-- Modelled from the spec: iterpeek of petl.util over the instrumented
iterator: reads one element and pushes it back, so the returned iterator
replays it without touching the source again. -/
def iterpeekP {α : Type} (it : PIter α) : Option (α × PIter α) :=
  match pnext it with
  | some (a, it2) => some (a, PIter.mk (a :: it2.buf) it2.src it2.reads)
  | none => none

/-- Consume an instrumented iterator to the end, returning the elements
yielded and the final source-read count. -/
def drainP {α : Type} : PIter α → List α × Nat
  | PIter.mk (b :: bs) s r =>
      let ln := drainP (PIter.mk bs s r)
      (b :: ln.1, ln.2)
  | PIter.mk [] (x :: xs) r =>
      let ln := drainP (PIter.mk [] xs (r + 1))
      (x :: ln.1, ln.2)
  | PIter.mk [] [] r => ([], r)
termination_by it => it.buf.length + it.src.length

/-- The header row of a table as it appears inside the row stream (field
names are string values there). -/
def headerRow (hdr : List String) : Row := hdr.map Val.vstr

/-- Recover field names from a header row within the stream. -/
def unheader (row : Row) : List String :=
  row.filterMap (fun c => match c with | Val.vstr s => some s | _ => none)

/-- A table as the single row stream its iterator yields: header row
first, then the data rows. -/
def streamOf (t : Table) : List Row := headerRow t.header :: t.rows

/-- iterrowreduce with fields=None over the instrumented stream: peeks
the header to reuse it, pushes it back, and hands the pushed-back
iterator to the grouping primitive (which consumes header and rows);
also returns the number of source reads performed. -/
def iterrowreduceP (it : PIter Row) (key : Key)
    (reducer : Val → List Row → Row) : Option ((Row × List Row) × Nat) :=
  match iterpeekP it with
  | none => none
  | some (fields, it2) =>
      let dr := drainP it2
      match dr.1 with
      | [] => none
      | hdrRow :: rows =>
          some ((fields,
            (groupRuns (keyGet key (unheader hdrRow)) rows).map
              (fun kg => reducer kg.1 kg.2)), dr.2)

theorem unheader_headerRow (hdr : List String) : unheader (headerRow hdr) = hdr := by
  induction hdr with
  | nil => rfl
  | cons h hs ih => simp [unheader, headerRow] at ih ⊢; exact ih

theorem drainP_fresh {α : Type} (l : List α) (r : Nat) :
    drainP (PIter.mk [] l r) = (l, r + l.length) := by
  induction l generalizing r with
  | nil => simp [drainP]
  | cons x xs ih =>
      rw [drainP]
      simp only [ih, List.length_cons, Prod.mk.injEq]
      exact And.intro trivial (by omega)

theorem drainP_buf1 {α : Type} (a : α) (l : List α) (r : Nat) :
    drainP (PIter.mk [a] l r) = (a :: l, r + l.length) := by
  rw [drainP]
  simp [drainP_fresh]

/-- Peeking one element and then draining yields the stream unchanged,
with every underlying element read exactly once. -/
theorem iterpeekP_single_traversal {α : Type} (x : α) (xs : List α) :
    iterpeekP (PIter.mk [] (x :: xs) 0) =
      some (x, PIter.mk [x] xs 1) ∧
    drainP (PIter.mk [x] xs 1) = (x :: xs, (x :: xs).length) := by
  constructor
  · rfl
  · rw [drainP_buf1]
    simp [Nat.add_comm]

/-- The Python functools.reduce builtin with no initializer: a strict
seedless left-fold; reducing an empty sequence raises a TypeError. -/
def pyreduce (f : Val → Val → Val) : List Val → Except String Val
  | [] => Except.error "TypeError: reduce() of empty sequence with no initial value"
  | x :: xs => Except.ok (xs.foldl f x)

/-- iterfold of reductions.py: yields the literal header (key, value),
then for each contiguous group the key and reduce(f, group values); a
raised error aborts the iteration. -/
def iterfold (table : Table) (key : Key) (f : Val → Val → Val)
    (value : Option String) : Except String Table := do
  let rows ← (rowgroupbyv table key value).mapM
    (fun kg => (pyreduce f kg.2).map (fun v => [kg.1, v]))
  return Table.mk ["key", "value"] rows

/-- FoldView: sorts by the key unless presorted, then iterates via
iterfold. -/
def fold (table : Table) (key : Key) (f : Val → Val → Val)
    (value : Option String) (presorted : Bool) : Except String Table :=
  iterfold (if presorted then table else sort table key false) key f value

/-- groupselectfirst of reductions.py: rowreduce with a reducer that
returns the first row of each group (next(rows); groups are never
empty, so the default never shows). -/
def groupselectfirst (table : Table) (key : Key) : Table :=
  rowreduce table key (fun _ rows => rows.headD []) none false

/-- groupselectmin of reductions.py: sort ascending by the value field,
then first row per key group. -/
def groupselectmin (table : Table) (key : Key) (value : String) : Table :=
  groupselectfirst (sort table (Key.field value) false) key

/-- groupselectmax of reductions.py: sort descending by the value field,
then first row per key group. -/
def groupselectmax (table : Table) (key : Key) (value : String) : Table :=
  groupselectfirst (sort table (Key.field value) true) key

/-- An output cell of merge-duplicates: either a plain value or a
Conflict, the deduplicated set of disagreeing values (Conflict
sub-classes frozenset, so it is an unordered collection). -/
inductive MVal where
  | mval (v : Val)
  | mconflict (s : Finset Val)
deriving DecidableEq

/-- The values observed for field index i across the rows of a group, in
row order, excluding rows where the field is absent (row too short) and
cells equal to the missing sentinel; the generator inside the Python
expression set(row[i] for row in grp if len(row) > i and row[i] != missing). -/
def obsCell (i : Nat) (missing : Val) (row : Row) : Option Val :=
  match row.get? i with
  | some v => if v = missing then none else some v
  | none => none

def observedVals (grp : List Row) (i : Nat) (missing : Val) : List Val :=
  grp.filterMap (obsCell i missing)

/-- The set built from the observed values (the Python set around the
generator). -/
def mergedSet (grp : List Row) (i : Nat) (missing : Val) : Finset Val :=
  (observedVals grp i missing).toFinset

/-- The per-field resolution of itermergeduplicates: the single value if
one distinct value was observed, the missing sentinel if none, and a
Conflict of the whole set otherwise (vals.pop() if len(vals) == 1 else
missing if len(vals) == 0 else Conflict(vals)). -/
def mergeResolve (missing : Val) (l : List Val) : MVal :=
  match l.dedup with
  | [v] => MVal.mval v
  | [] => MVal.mval missing
  | _ => MVal.mconflict l.toFinset

/-- itermergeduplicates of reductions.py for a single-field key: output
header is the key field followed by the remaining fields in original
order; one output row per group, with each non-key cell resolved from
the set of observed values. -/
def itermergeduplicates (table : Table) (key : String) (missing : Val) :
    (List String) × List (List MVal) :=
  let fields := table.header
  let valflds := fields.filter (fun f => f ≠ key)
  let valfldidxs := valflds.map (fun f => fields.indexOf f)
  let outflds := key :: valflds
  (outflds,
    (rowgroupby table (Key.field key)).map (fun kg =>
      MVal.mval kg.1 ::
        valfldidxs.map (fun i =>
          mergeResolve missing (observedVals kg.2 i missing))))

/-- MergeDuplicatesView: sorts by the key unless presorted, then
iterates via itermergeduplicates. -/
def mergeduplicates (table : Table) (key : String) (missing : Val)
    (presorted : Bool) : (List String) × List (List MVal) :=
  itermergeduplicates (if presorted then table else sort table (Key.field key) false)
    key missing

/-- The argument a Python aggregation callable receives: the whole list
of group rows, the sequence of one field values, or the sequence of
value tuples of a compound field selection. -/
inductive AggArg where
  | rows (rs : List Row)
  | vals (vs : List Val)
  | tups (ts : List Row)

/-- A Python callable used as an aggregation function: one dynamically
typed function applicable to any of the argument shapes. -/
def AggFunc : Type := AggArg → Val

/-- The list builtin as an aggregation function (the default aggregation
when only a field name is given): collects the argument into a
sequence. -/
def listAgg : AggFunc
  | AggArg.rows rs => Val.vlist (rs.map Val.vlist)
  | AggArg.vals vs => Val.vlist vs
  | AggArg.tups ts => Val.vlist (ts.map Val.vlist)

/-- A Python value as it occurs inside an aggregation rule tuple. -/
inductive PyV where
  | pnone
  | pstr (s : String)
  | pfn (f : AggFunc)
  | pflds (fs : List String)
  | pint (n : Int)

/-- A raw aggregation rule as stored in the mapping of a multi-aggregate
view before normalisation: a bare callable, a bare field-name string,
None, a number, or a tuple of rule elements. -/
inductive RawAgg where
  | rfn (f : AggFunc)
  | rstr (s : String)
  | rnone
  | rint (n : Int)
  | rtup (l : List PyV)

/-- Python repr of a rule element, for error messages. -/
def reprPyV : PyV → String
  | PyV.pnone => "None"
  | PyV.pstr s => "'" ++ s ++ "'"
  | PyV.pfn _ => "<function>"
  | PyV.pflds fs => "(" ++ String.intercalate ", " (fs.map (fun f => "'" ++ f ++ "'")) ++ ")"
  | PyV.pint n => toString n

/-- Python repr of a raw rule, for error messages. -/
def reprRawAgg : RawAgg → String
  | RawAgg.rfn _ => "<function>"
  | RawAgg.rstr s => "'" ++ s ++ "'"
  | RawAgg.rnone => "None"
  | RawAgg.rint n => toString n
  | RawAgg.rtup l => "(" ++ String.intercalate ", " (l.map reprPyV) ++ ")"

/-- The descriptive error of itermultiaggregate for an invalid rule
shape: names the offending output column and the malformed rule. -/
def invalidAggMsg (outfld : String) (agg : RawAgg) : String :=
  "invalid aggregation: '" ++ outfld ++ "', " ++ reprRawAgg agg

/-- Normalisation of one aggregation rule, as the loop of
itermultiaggregate performs it: a bare callable becomes (None, f); a
bare field name becomes (field, list); a 1-tuple of a field name becomes
(field, list); a 1-tuple of a callable becomes (None, f); a 2-tuple
passes verbatim; any other sized value raises the descriptive error;
an unsized value (None, a number) makes len(agg) itself raise a
TypeError that does not name the column. -/
def normaliseRule (outfld : String) : RawAgg → Except String (PyV × PyV)
  | RawAgg.rfn f => Except.ok (PyV.pnone, PyV.pfn f)
  | RawAgg.rstr s => Except.ok (PyV.pstr s, PyV.pfn listAgg)
  | RawAgg.rnone => Except.error "TypeError: object of type 'NoneType' has no len()"
  | RawAgg.rint _ => Except.error "TypeError: object of type 'int' has no len()"
  | RawAgg.rtup [x] =>
      (match x with
      | PyV.pstr s => Except.ok (PyV.pstr s, PyV.pfn listAgg)
      | PyV.pfn f => Except.ok (PyV.pnone, PyV.pfn f)
      | x2 => Except.error (invalidAggMsg outfld (RawAgg.rtup [x2])))
  | RawAgg.rtup [a, b] => Except.ok (a, b)
  | RawAgg.rtup l => Except.error (invalidAggMsg outfld (RawAgg.rtup l))

/-- Normalisation of the whole mapping, in mapping order; the first
malformed rule raises. -/
def normaliseMapping (aggregation : List (String × RawAgg)) :
    Except String (List (String × (PyV × PyV))) :=
  aggregation.mapM (fun p => (normaliseRule p.1 p.2).map (fun n => (p.1, n)))

/-- The list.index method of Python on the header: position of a field
name, ValueError when absent. -/
def srcIndex (flds : List String) (f : String) : Except String Nat :=
  match flds.findIdx? (fun s => s == f) with
  | some i => Except.ok i
  | none => Except.error ("ValueError: '" ++ f ++ "' is not in list")

/-- Python row[i]: the cell at index i, IndexError when the row is
shorter. -/
def pyGet (row : Row) (i : Nat) : Except String Val :=
  match row.get? i with
  | some v => Except.ok v
  | none => Except.error "IndexError: list index out of range"

/-- Calling a rule element as a function: a TypeError unless it actually
is a callable. -/
def applyAgg : PyV → AggArg → Except String Val
  | PyV.pfn f, arg => Except.ok (f arg)
  | _, _ => Except.error "TypeError: object is not callable"

/-- One output-column computation for one group, as in the body of the
group loop of itermultiaggregate: resolves the source field against the
peeked header (counting each field-index lookup performed), extracts the
values and applies the aggregation function.  The count is the number of
srcflds.index calls this column performs for this group. -/
def aggColumn (srcflds : List String) (rows : List Row) :
    (PyV × PyV) → Except String (Val × Nat)
  | (PyV.pnone, fnv) => (applyAgg fnv (AggArg.rows rows)).map (fun v => (v, 0))
  | (PyV.pstr s, fnv) => do
      let idx ← srcIndex srcflds s
      let vals ← rows.mapM (fun r => pyGet r idx)
      let v ← applyAgg fnv (AggArg.vals vals)
      return (v, 1)
  | (PyV.pflds fs, fnv) => do
      let idxs ← fs.mapM (srcIndex srcflds)
      let ts ← rows.mapM (fun r => idxs.mapM (pyGet r))
      let v ← (match idxs with
        | [_] => applyAgg fnv (AggArg.vals (ts.map (fun t => t.headD Val.vnone)))
        | _ => applyAgg fnv (AggArg.tups ts))
      return (v, fs.length)
  | (PyV.pfn _, _) => Except.error "ValueError: function is not in list"
  | (PyV.pint n, _) => Except.error ("ValueError: " ++ toString n ++ " is not in list")

/-- The cells of one output row after the key cell, over the normalised
mapping in order, with the total field-index lookup count of the
group. -/
def aggCells (srcflds : List String) (rows : List Row) :
    List (String × (PyV × PyV)) → Except String (List Val × Nat)
  | [] => Except.ok ([], 0)
  | (_, na) :: rest => do
      let vc ← aggColumn srcflds rows na
      let rest2 ← aggCells srcflds rows rest
      return (vc.1 :: rest2.1, vc.2 + rest2.2)

/-- The key columns of the output header: the key field name, or the
literal name key for a callable key. -/
def keyHeader (key : Key) : List String :=
  match key with
  | Key.field f => [f]
  | Key.fn _ => ["key"]

/-- The copy the iterator takes of the mapping before normalising
(OrderedDict(aggregation.items())): normalisation rewrites only this
copy, never the mapping held by the view. -/
def copyMapping (m : List (String × RawAgg)) : List (String × RawAgg) :=
  m.foldr (fun p acc => p :: acc) []

/-- itermultiaggregate of reductions.py: peeks the source header
(pushing it back so the stream is consumed once), copies and normalises
the aggregation mapping, emits the key column(s) followed by the output
column names as header, then one row per contiguous group with one
aggregated value per output column.  Besides the table it returns the
total number of header field-index lookups performed while generating
the data. -/
def itermultiaggregate (source : Table) (key : Key)
    (aggregation : List (String × RawAgg)) : Except String (Table × Nat) := do
  let srcflds := source.header
  let norm ← normaliseMapping (copyMapping aggregation)
  let outflds := keyHeader key ++ norm.map Prod.fst
  let rcs ← (rowgroupby source key).mapM (fun kg => do
      let cc ← aggCells srcflds kg.2 norm
      return ((kg.1 :: cc.1 : Row), cc.2))
  return (Table.mk outflds (rcs.map Prod.fst), (rcs.map Prod.snd).sum)

/-- The multi-aggregate view: wraps the (already sorted unless
presorted) source, the key and the mutable aggregation mapping. -/
structure MultiAggregateView where
  source : Table
  key : Key
  aggregation : List (String × RawAgg)

/-- MultiAggregateView construction from a mapping: the rules are stored
unexamined (no normalisation and no validation happen at construction
time). -/
def mkMultiAggregateView (source : Table) (key : Key)
    (aggregation : List (String × RawAgg)) : MultiAggregateView :=
  MultiAggregateView.mk source key aggregation

/-- MultiAggregateView.__setitem__: builder-style assignment of a rule
to an output column; an existing column is overwritten in place (an
ordered mapping keeps its position), a new one is appended. -/
def setitemAgg (m : List (String × RawAgg)) (c : String) (r : RawAgg) :
    List (String × RawAgg) :=
  if c ∈ m.map Prod.fst then
    m.map (fun p => if p.1 = c then (c, r) else p)
  else m ++ [(c, r)]

/-- One whole iteration of the view as a state transformer on the view
mapping: the result is computed from the mapping as it stands when the
iteration starts, and the mapping the view holds afterwards is returned
alongside (the normalisation above rewrites only the copy, so the
mapping comes back unchanged). -/
def itermultiaggregateSt (v : MultiAggregateView) :
    (List (String × RawAgg)) × Except String (Table × Nat) :=
  (v.aggregation, itermultiaggregate v.source v.key v.aggregation)

/-- Modelled from the spec: asindices of petl.util in the single-field
call shape the selection wrappers use: resolve the field name to its
header position, an error when the field is unknown. -/
def asindices (flds : List String) (field : String) : Except String Nat :=
  match flds.findIdx? (fun s => s == field) with
  | some i => Except.ok i
  | none => Except.error ("FieldSelectionError: invalid key - '" ++ field ++ "'")

/-- The row loop of iterfieldselect: extracts the field value of every
data row (operator.itemgetter: an IndexError on a row shorter than the
resolved index, raised before the predicate runs, so even a row the
predicate would reject aborts the iteration), keeping the rows on which
the predicate result differs from the complement flag (XOR). -/
def selectRows (idx : Nat) (wh : Val → Bool) (complement : Bool) :
    List Row → Except String (List Row)
  | [] => Except.ok []
  | r :: rs => do
      let v ← pyGet r idx
      let rest ← selectRows idx wh complement rs
      return (if wh v != complement then r :: rest else rest)

/-- iterfieldselect of selects.py in the single-field form: yields the
header, resolves the field index, then filters the data rows by the
predicate on the extracted cell. -/
def iterfieldselect (source : Table) (field : String) (wh : Val → Bool)
    (complement : Bool) : Except String Table := do
  let idx ← asindices source.header field
  let rows ← selectRows idx wh complement source.rows
  return Table.mk source.header rows

/-- selectop of selects.py: select rows where op applied to the field
value and the given value returns true. -/
def selectop (table : Table) (field : String) (value : Val)
    (op : Val → Val → Bool) (complement : Bool) : Except String Table :=
  iterfieldselect table field (fun v => op v value) complement

/-- selecteq of selects.py. -/
def selecteq (table : Table) (field : String) (value : Val)
    (complement : Bool) : Except String Table :=
  selectop table field value (fun a b => a == b) complement

/-- selectrangeopenleft of selects.py: minv <= v < maxv. -/
def selectrangeopenleft (table : Table) (field : String) (minv maxv : Val)
    (complement : Bool) : Except String Table :=
  iterfieldselect table field (fun v => valLe minv v && valLt v maxv) complement

/-- selectrangeopenright of selects.py: minv < v <= maxv. -/
def selectrangeopenright (table : Table) (field : String) (minv maxv : Val)
    (complement : Bool) : Except String Table :=
  iterfieldselect table field (fun v => valLt minv v && valLe v maxv) complement

/-- selectrangeopen of selects.py: minv <= v <= maxv (both bounds
included, despite the name). -/
def selectrangeopen (table : Table) (field : String) (minv maxv : Val)
    (complement : Bool) : Except String Table :=
  iterfieldselect table field (fun v => valLe minv v && valLe v maxv) complement

/-- selectrangeclosed of selects.py: minv < Comparable(v) < maxv (both
bounds excluded, despite the name); the Comparable wrapper is the
cross-type total ordering already modelled by valLe. -/
def selectrangeclosed (table : Table) (field : String) (minv maxv : Val)
    (complement : Bool) : Except String Table :=
  iterfieldselect table field (fun v => valLt minv v && valLt v maxv) complement

/-- The loop of iterselectusingcontext: holds the current row while
reading the next; the query sees (previous, current, next) with None
for the absent neighbours, and the current row is yielded exactly when
the query returns true. -/
def iterCtx (query : Option Row → Row → Option Row → Bool) :
    Option Row → Row → List Row → List Row
  | prv, cur, [] => if query prv cur none then [cur] else []
  | prv, cur, nxt :: rest =>
      (if query prv cur (some nxt) then [cur] else []) ++
        iterCtx query (some cur) nxt rest

/-- The sequence of query invocations the loop performs, each with its
(previous, current, next) arguments. -/
def ctxCalls : Option Row → Row → List Row →
    List (Option Row × Row × Option Row)
  | prv, cur, [] => [(prv, cur, none)]
  | prv, cur, nxt :: rest => (prv, cur, some nxt) :: ctxCalls (some cur) nxt rest

/-- iterselectusingcontext of selects.py: none when the table has no
data rows (the bare next(it) call fails there), else the header and the
kept rows. -/
def iterselectusingcontext (table : Table)
    (query : Option Row → Row → Option Row → Bool) : Option Table :=
  match table.rows with
  | [] => none
  | r :: rs => some (Table.mk table.header (iterCtx query none r rs))

theorem rowgroupby_nonempty (t : Table) (key : Key) :
    ∀ kg ∈ rowgroupby t key, kg.2 ≠ [] :=
  groupRuns_nonempty (keyGet key t.header) t.rows

theorem rowgroupbyv_nonempty (t : Table) (key : Key) (value : Option String) :
    ∀ kg ∈ rowgroupbyv t key value, kg.2 ≠ [] := by
  intro kg hkg
  rcases List.mem_map.mp hkg with ⟨kg0, hkg0, hmap⟩
  have := rowgroupby_nonempty t key kg0 hkg0
  rw [← hmap]
  simpa using this

theorem pyreduce_mapM_ok (f : Val → Val → Val) :
    ∀ gs : List (Val × List Val), (∀ kg ∈ gs, kg.2 ≠ []) →
      gs.mapM (fun kg => (pyreduce f kg.2).map (fun v => ([kg.1, v] : Row))) =
        Except.ok (gs.map (fun kg =>
          [kg.1, kg.2.tail.foldl f (kg.2.headD Val.vnone)])) := by
  intro gs
  induction gs with
  | nil => intro _; rfl
  | cons kg rest ih =>
      intro hne
      match hkg : kg with
      | (k, []) =>
          exact absurd (by simpa using hne (k, []) (by simp [hkg]))
            (fun h => h)
      | (k, v :: vs) =>
          have hrest := ih (fun kg2 h2 => hne kg2 (List.mem_cons_of_mem _ h2))
          rw [List.mapM_cons, hrest]
          rfl

/-- C4 helper: iterating a fold view always succeeds, because the
grouping primitive never produces an empty group. -/
theorem iterfold_ok (t : Table) (key : Key) (f : Val → Val → Val)
    (value : Option String) :
    iterfold t key f value = Except.ok (Table.mk ["key", "value"]
      ((rowgroupbyv t key value).map (fun kg =>
        [kg.1, kg.2.tail.foldl f (kg.2.headD Val.vnone)]))) := by
  rw [iterfold]
  rw [pyreduce_mapM_ok f (rowgroupbyv t key value) (rowgroupbyv_nonempty t key value)]
  rfl

/-- C4: for every table T and key K, iterating fold(T, K, f, value)
yields exactly the fixed header (key, value) regardless of the key,
followed by one row per contiguous group whose second component is the
strict seedless left-fold of f over the group's extracted value sequence
(whole rows when value is omitted), and folding an empty sequence with
no seed raises an error at iteration time. -/
theorem fold_spec (t : Table) (key : Key) (f : Val → Val → Val)
    (value : Option String) (presorted : Bool) :
    fold t key f value presorted = Except.ok (Table.mk ["key", "value"]
      ((rowgroupbyv (if presorted then t else sort t key false) key value).map
        (fun kg => [kg.1, kg.2.tail.foldl f (kg.2.headD Val.vnone)]))) ∧
    pyreduce f [] =
      Except.error "TypeError: reduce() of empty sequence with no initial value" := by
  exact ⟨iterfold_ok _ key f value, rfl⟩

theorem selectRows_ok (idx : Nat) (wh : Val → Bool) (c : Bool) :
    ∀ rows : List Row, (∀ r ∈ rows, idx < r.length) →
      selectRows idx wh c rows =
        Except.ok (rows.filter (fun r => wh (r.getD idx Val.vnone) != c)) := by
  intro rows
  induction rows with
  | nil => intro _; rfl
  | cons r rs ih =>
      intro hlen
      have hr : idx < r.length := hlen r (List.mem_cons_self r rs)
      have hv : r.get? idx = some (r.getD idx Val.vnone) := by
        rw [List.getD_eq_getD_get?]
        rcases List.get?_eq_get hr with h
        rw [h]
        rfl
      have hrest := ih (fun r2 h2 => hlen r2 (List.mem_cons_of_mem _ h2))
      rw [selectRows]
      simp only [pyGet, hv, hrest, bind, Except.bind, List.filter_cons]
      by_cases hcond : (wh (r.getD idx Val.vnone) != c) = true
      · simp [hcond, pure, Except.pure]
      · simp only [Bool.not_eq_true] at hcond
        simp [hcond, pure, Except.pure]

theorem selectRows_error (idx : Nat) (wh : Val → Bool) (c : Bool) :
    ∀ rows : List Row, (∃ r ∈ rows, r.length ≤ idx) →
      selectRows idx wh c rows =
        Except.error "IndexError: list index out of range" := by
  intro rows
  induction rows with
  | nil => intro ⟨r, hr, _⟩; simp at hr
  | cons r rs ih =>
      intro ⟨r0, hr0, hshort⟩
      rw [selectRows]
      by_cases hr : idx < r.length
      · have hv : r.get? idx = some (r.getD idx Val.vnone) := by
          rw [List.getD_eq_getD_get?]
          rcases List.get?_eq_get hr with h
          rw [h]
          rfl
        have : r0 ∈ rs := by
          rcases List.mem_cons.mp hr0 with h | h
          · subst h; omega
          · exact h
        simp only [pyGet, hv, bind, Except.bind]
        rw [ih ⟨r0, this, hshort⟩]
      · have hv : r.get? idx = none := by
          rw [List.get?_eq_none]
          omega
        simp only [pyGet, hv, bind, Except.bind]

theorem getq_lt {α : Type} (l : List α) (i : Nat) (d : α) (h : i < l.length) :
    l.get? i = some (l.getD i d) := by
  rw [List.getD_eq_getD_get?]
  rcases List.get?_eq_get h with hq
  rw [hq]
  rfl

theorem iterfieldselect_ok (t : Table) (field : String) (wh : Val → Bool)
    (c : Bool) (idx : Nat)
    (hidx : asindices t.header field = Except.ok idx)
    (hlen : ∀ r ∈ t.rows, idx < r.length) :
    iterfieldselect t field wh c = Except.ok (Table.mk t.header
      (t.rows.filter (fun r => wh (r.getD idx Val.vnone) != c))) := by
  simp only [iterfieldselect, hidx, bind, Except.bind]
  rw [selectRows_ok idx wh c t.rows hlen]
  rfl

/-- C5: boundary semantics of the four range selections:
selectrangeopenleft keeps exactly the rows with minv <= v < maxv,
selectrangeopenright those with minv < v <= maxv, selectrangeopen those
with minv <= v <= maxv, and selectrangeclosed those with
minv < v < maxv — the boundary inclusivity of the latter two is
inverted relative to the mathematical meaning of their names. -/
theorem selectrange_spec (t : Table) (field : String) (minv maxv : Val)
    (idx : Nat) (hidx : asindices t.header field = Except.ok idx)
    (hlen : ∀ r ∈ t.rows, idx < r.length) :
    selectrangeopenleft t field minv maxv false = Except.ok (Table.mk t.header
      (t.rows.filter (fun r =>
        valLe minv (r.getD idx Val.vnone) && valLt (r.getD idx Val.vnone) maxv)))
    ∧ selectrangeopenright t field minv maxv false = Except.ok (Table.mk t.header
      (t.rows.filter (fun r =>
        valLt minv (r.getD idx Val.vnone) && valLe (r.getD idx Val.vnone) maxv)))
    ∧ selectrangeopen t field minv maxv false = Except.ok (Table.mk t.header
      (t.rows.filter (fun r =>
        valLe minv (r.getD idx Val.vnone) && valLe (r.getD idx Val.vnone) maxv)))
    ∧ selectrangeclosed t field minv maxv false = Except.ok (Table.mk t.header
      (t.rows.filter (fun r =>
        valLt minv (r.getD idx Val.vnone) && valLt (r.getD idx Val.vnone) maxv))) := by
  refine ⟨?_, ?_, ?_, ?_⟩ <;>
  · first
    | rw [selectrangeopenleft]
    | rw [selectrangeopenright]
    | rw [selectrangeopen]
    | rw [selectrangeclosed]
    rw [iterfieldselect_ok t field _ false idx hidx hlen]
    simp

/-- Concrete table for the C5 witness. -/
def c5tbl : Table :=
  Table.mk ["foo"] [[Val.vint 0], [Val.vint 1], [Val.vint 2], [Val.vint 3]]

theorem selectrange_spec_witness :
    selectrangeopenleft c5tbl "foo" (Val.vint 1) (Val.vint 3) false =
      Except.ok (Table.mk c5tbl.header (c5tbl.rows.filter (fun r =>
        valLe (Val.vint 1) (r.getD 0 Val.vnone) &&
          valLt (r.getD 0 Val.vnone) (Val.vint 3))))
    ∧ selectrangeopenright c5tbl "foo" (Val.vint 1) (Val.vint 3) false =
      Except.ok (Table.mk c5tbl.header (c5tbl.rows.filter (fun r =>
        valLt (Val.vint 1) (r.getD 0 Val.vnone) &&
          valLe (r.getD 0 Val.vnone) (Val.vint 3))))
    ∧ selectrangeopen c5tbl "foo" (Val.vint 1) (Val.vint 3) false =
      Except.ok (Table.mk c5tbl.header (c5tbl.rows.filter (fun r =>
        valLe (Val.vint 1) (r.getD 0 Val.vnone) &&
          valLe (r.getD 0 Val.vnone) (Val.vint 3))))
    ∧ selectrangeclosed c5tbl "foo" (Val.vint 1) (Val.vint 3) false =
      Except.ok (Table.mk c5tbl.header (c5tbl.rows.filter (fun r =>
        valLt (Val.vint 1) (r.getD 0 Val.vnone) &&
          valLt (r.getD 0 Val.vnone) (Val.vint 3)))) :=
  selectrange_spec c5tbl "foo" (Val.vint 1) (Val.vint 3) 0 rfl (by decide)

/-- Concrete table with a short second data row, for C9. -/
def c9tbl : Table :=
  Table.mk ["foo", "bar"] [[Val.vstr "a", Val.vint 1], [Val.vstr "b"]]

/-- C9 counterexample: iterating selecteq on the field bar over a table
whose second data row is too short to hold a bar cell raises an
IndexError instead of treating the value as missing. -/
theorem selecteq_short_row_raises :
    selecteq c9tbl "bar" (Val.vint 1) false =
      Except.error "IndexError: list index out of range" := by
  rfl

/-- C9 amended: the two engines disagree on beyond-length accesses.
Field-predicate selection extracts by raw index and raises an IndexError
as soon as any data row is shorter than the resolved index (even one the
predicate would reject), while merge-duplicates excludes such rows from
the observed-value set exactly as if the field were absent. -/
theorem short_row_access_spec (t : Table) (field : String) (wh : Val → Bool)
    (c : Bool) (idx : Nat) (r0 : Row)
    (hidx : asindices t.header field = Except.ok idx)
    (hr0 : r0 ∈ t.rows) (hshort : r0.length ≤ idx) :
    iterfieldselect t field wh c =
      Except.error "IndexError: list index out of range"
    ∧ ∀ (grp : List Row) (i : Nat) (missing : Val),
        observedVals grp i missing =
          observedVals (grp.filter (fun r => decide (i < r.length))) i missing := by
  constructor
  · simp only [iterfieldselect, hidx, bind, Except.bind]
    rw [selectRows_error idx wh c t.rows ⟨r0, hr0, hshort⟩]
  · intro grp i missing
    induction grp with
    | nil => rfl
    | cons r rs ih =>
        simp only [observedVals] at ih ⊢
        rw [List.filter_cons]
        by_cases h : i < r.length
        · rw [if_pos (by simpa using h), List.filterMap_cons, List.filterMap_cons]
          cases hc : obsCell i missing r with
          | none => exact ih
          | some v => rw [ih]
        · have hv : r.get? i = none := by
            rw [List.get?_eq_none]
            omega
          have hc : obsCell i missing r = none := by
            simp only [obsCell, hv]
          rw [if_neg (by simpa using h), List.filterMap_cons, hc]
          exact ih

theorem short_row_access_spec_witness :
    (iterfieldselect c9tbl "bar" (fun v => v == Val.vint 1) false =
      Except.error "IndexError: list index out of range")
    ∧ ∀ (grp : List Row) (i : Nat) (missing : Val),
        observedVals grp i missing =
          observedVals (grp.filter (fun r => decide (i < r.length))) i missing :=
  short_row_access_spec c9tbl "bar" (fun v => v == Val.vint 1) false 1
    [Val.vstr "b"] rfl (by decide) (by decide)

theorem ctxCalls_length :
    ∀ (rest : List Row) (prv : Option Row) (cur : Row),
      (ctxCalls prv cur rest).length = rest.length + 1 := by
  intro rest
  induction rest with
  | nil => intro prv cur; rfl
  | cons nxt rest2 ih =>
      intro prv cur
      simp only [ctxCalls, List.length_cons, ih]

theorem ctxCalls_get :
    ∀ (rest : List Row) (prv : Option Row) (cur : Row) (i : Nat),
      i < rest.length + 1 →
      (ctxCalls prv cur rest).get? i = some
        ((if i = 0 then prv else (cur :: rest).get? (i - 1)),
         (cur :: rest).getD i [],
         (cur :: rest).get? (i + 1)) := by
  intro rest
  induction rest with
  | nil =>
      intro prv cur i hi
      match i with
      | 0 => rfl
      | Nat.succ j => simp at hi
  | cons nxt rest2 ih =>
      intro prv cur i hi
      match i with
      | 0 => rfl
      | Nat.succ j =>
          have hj : j < rest2.length + 1 := by
            simp only [List.length_cons] at hi
            omega
          have := ih (some cur) nxt j hj
          simp only [ctxCalls, List.get?_cons_succ, this]
          match j with
          | 0 => rfl
          | Nat.succ k => rfl

theorem iterCtx_filterMap (query : Option Row → Row → Option Row → Bool) :
    ∀ (rest : List Row) (prv : Option Row) (cur : Row),
      iterCtx query prv cur rest = (ctxCalls prv cur rest).filterMap
        (fun pcn => if query pcn.1 pcn.2.1 pcn.2.2 then some pcn.2.1 else none) := by
  intro rest
  induction rest with
  | nil =>
      intro prv cur
      by_cases h : query prv cur none <;> simp [iterCtx, ctxCalls, h]
  | cons nxt rest2 ih =>
      intro prv cur
      by_cases h : query prv cur (some nxt) <;>
        simp [iterCtx, ctxCalls, h, ih (some cur) nxt]

/-- C6: over a table with at least one data row, the context selection
invokes the predicate exactly once per data row, with the previous row
(or the absent sentinel at the first row), the row itself, and the next
row (or the absent sentinel at the last row), and yields exactly the
rows on which the predicate returned true. -/
theorem selectusingcontext_spec (t : Table)
    (query : Option Row → Row → Option Row → Bool) (r : Row) (rs : List Row)
    (hrows : t.rows = r :: rs) :
    iterselectusingcontext t query =
      some (Table.mk t.header (iterCtx query none r rs))
    ∧ (ctxCalls none r rs).length = t.rows.length
    ∧ (∀ i, i < t.rows.length →
        (ctxCalls none r rs).get? i = some
          ((if i = 0 then none else t.rows.get? (i - 1)),
           t.rows.getD i [],
           t.rows.get? (i + 1)))
    ∧ iterCtx query none r rs = (ctxCalls none r rs).filterMap
        (fun pcn => if query pcn.1 pcn.2.1 pcn.2.2 then some pcn.2.1 else none) := by
  refine ⟨?_, ?_, ?_, ?_⟩
  · simp [iterselectusingcontext, hrows]
  · rw [ctxCalls_length, hrows]
    simp
  · intro i hi
    rw [hrows] at hi
    simp only [List.length_cons] at hi
    rw [hrows]
    exact ctxCalls_get rs none r i (by omega)
  · exact iterCtx_filterMap query rs none r

/-- Concrete table for the C6 witness. -/
def c6tbl : Table :=
  Table.mk ["foo"] [[Val.vint 1], [Val.vint 2], [Val.vint 3]]

/-- Concrete context predicate for the C6 witness: keep rows with an
absent neighbour (first and last). -/
def c6query (prv : Option Row) (cur : Row) (nxt : Option Row) : Bool :=
  cur.length > 0 && (prv.isNone || nxt.isNone)

theorem selectusingcontext_spec_witness :
    iterselectusingcontext c6tbl c6query =
      some (Table.mk c6tbl.header
        (iterCtx c6query none [Val.vint 1] [[Val.vint 2], [Val.vint 3]]))
    ∧ (ctxCalls none [Val.vint 1] [[Val.vint 2], [Val.vint 3]]).length =
        c6tbl.rows.length
    ∧ (∀ i, i < c6tbl.rows.length →
        (ctxCalls none [Val.vint 1] [[Val.vint 2], [Val.vint 3]]).get? i = some
          ((if i = 0 then none else c6tbl.rows.get? (i - 1)),
           c6tbl.rows.getD i [],
           c6tbl.rows.get? (i + 1)))
    ∧ iterCtx c6query none [Val.vint 1] [[Val.vint 2], [Val.vint 3]] =
        (ctxCalls none [Val.vint 1] [[Val.vint 2], [Val.vint 3]]).filterMap
          (fun pcn => if c6query pcn.1 pcn.2.1 pcn.2.2 then some pcn.2.1 else none) :=
  selectusingcontext_spec c6tbl c6query [Val.vint 1] [[Val.vint 2], [Val.vint 3]] rfl

/-- The groups a merge-duplicates view iterates (source sorted by the
key, then grouped). -/
def mdGroups (t : Table) (key : String) : List (Val × List Row) :=
  rowgroupby (sort t (Key.field key) false) (Key.field key)

/-- The non-key field indexes of a merge-duplicates view, resolved
against the original header in original field order. -/
def mdValIdxs (t : Table) (key : String) : List Nat :=
  (t.header.filter (fun f => f ≠ key)).map (fun f => t.header.indexOf f)

theorem mergeResolve_of_empty (missing : Val) (l : List Val)
    (h : l.toFinset = (∅ : Finset Val)) :
    mergeResolve missing l = MVal.mval missing := by
  have hl : l = [] := by
    cases l with
    | nil => rfl
    | cons x xs =>
        exfalso
        have hx : x ∈ (x :: xs).toFinset := by
          simp
        rw [h] at hx
        simp at hx
  subst hl
  rfl

theorem mergeResolve_of_singleton (missing : Val) (l : List Val) (v : Val)
    (h : l.toFinset = {v}) :
    mergeResolve missing l = MVal.mval v := by
  have hcard : l.dedup.length = 1 := by
    rw [← List.card_toFinset, h]
    simp
  rcases List.length_eq_one.mp hcard with ⟨w, hw⟩
  have hwv : w = v := by
    have hmem : w ∈ l.dedup := by
      rw [hw]
      simp
    have : w ∈ l.toFinset := by
      rw [List.mem_toFinset]
      exact List.mem_dedup.mp hmem
    rw [h] at this
    simpa using this
  subst hwv
  simp only [mergeResolve, hw]

theorem mergeResolve_of_conflict (missing : Val) (l : List Val)
    (h : 2 ≤ l.toFinset.card) :
    mergeResolve missing l = MVal.mconflict l.toFinset := by
  have hlen : 2 ≤ l.dedup.length := by
    rw [← List.card_toFinset]
    exact h
  cases hd : l.dedup with
  | nil => rw [hd] at hlen; simp at hlen
  | cons a tl =>
      cases tl with
      | nil => rw [hd] at hlen; simp at hlen
      | cons b tl2 => simp only [mergeResolve, hd]

/-- C2: for every group of a merge-duplicates view and every non-key
field: the output cell is resolved from the set of distinct values
observed across the group rows, excluding absent fields (rows too
short) and cells equal to the missing sentinel; no observed value
yields the missing sentinel, exactly one yields that value, and two or
more yield a Conflict wrapping the deduplicated set. -/
theorem mergeduplicates_spec (t : Table) (key : String) (missing : Val)
    (i j : Nat) (hi : i < (mdGroups t key).length)
    (hj : j < (mdValIdxs t key).length) :
    (mergeduplicates t key missing false).1 =
      key :: t.header.filter (fun f => f ≠ key)
    ∧ (mergeduplicates t key missing false).2.get? i = some
        (MVal.mval ((mdGroups t key).getD i (Val.vnone, [])).1 ::
          (mdValIdxs t key).map (fun ix => mergeResolve missing
            (observedVals ((mdGroups t key).getD i (Val.vnone, [])).2 ix missing)))
    ∧ (mergedSet ((mdGroups t key).getD i (Val.vnone, [])).2
          ((mdValIdxs t key).getD j 0) missing = ∅ →
        mergeResolve missing
          (observedVals ((mdGroups t key).getD i (Val.vnone, [])).2
            ((mdValIdxs t key).getD j 0) missing) = MVal.mval missing)
    ∧ (∀ v : Val,
        mergedSet ((mdGroups t key).getD i (Val.vnone, [])).2
          ((mdValIdxs t key).getD j 0) missing = {v} →
        mergeResolve missing
          (observedVals ((mdGroups t key).getD i (Val.vnone, [])).2
            ((mdValIdxs t key).getD j 0) missing) = MVal.mval v)
    ∧ (2 ≤ (mergedSet ((mdGroups t key).getD i (Val.vnone, [])).2
          ((mdValIdxs t key).getD j 0) missing).card →
        mergeResolve missing
          (observedVals ((mdGroups t key).getD i (Val.vnone, [])).2
            ((mdValIdxs t key).getD j 0) missing) =
          MVal.mconflict (mergedSet ((mdGroups t key).getD i (Val.vnone, [])).2
            ((mdValIdxs t key).getD j 0) missing)) := by
  refine ⟨rfl, ?_, ?_, ?_, ?_⟩
  · show ((mdGroups t key).map _).get? i = _
    rw [List.get?_map, getq_lt (mdGroups t key) i (Val.vnone, []) hi]
    rfl
  · exact mergeResolve_of_empty missing _
  · intro v
    exact mergeResolve_of_singleton missing _ v
  · exact mergeResolve_of_conflict missing _

/-- Concrete table for the C2 witness: two rows under key A, with a bar
conflict and a missing baz absorbed by a real value. -/
def c2tbl : Table :=
  Table.mk ["foo", "bar", "baz"]
    [[Val.vstr "A", Val.vint 1, Val.vint 27],
     [Val.vstr "A", Val.vint 2, Val.vnone]]

theorem mergeduplicates_spec_witness :
    (mergeduplicates c2tbl "foo" Val.vnone false).1 =
      "foo" :: c2tbl.header.filter (fun f => f ≠ "foo")
    ∧ (mergeduplicates c2tbl "foo" Val.vnone false).2.get? 0 = some
        (MVal.mval ((mdGroups c2tbl "foo").getD 0 (Val.vnone, [])).1 ::
          (mdValIdxs c2tbl "foo").map (fun ix => mergeResolve Val.vnone
            (observedVals ((mdGroups c2tbl "foo").getD 0 (Val.vnone, [])).2 ix Val.vnone)))
    ∧ (mergedSet ((mdGroups c2tbl "foo").getD 0 (Val.vnone, [])).2
          ((mdValIdxs c2tbl "foo").getD 0 0) Val.vnone = ∅ →
        mergeResolve Val.vnone
          (observedVals ((mdGroups c2tbl "foo").getD 0 (Val.vnone, [])).2
            ((mdValIdxs c2tbl "foo").getD 0 0) Val.vnone) = MVal.mval Val.vnone)
    ∧ (∀ v : Val,
        mergedSet ((mdGroups c2tbl "foo").getD 0 (Val.vnone, [])).2
          ((mdValIdxs c2tbl "foo").getD 0 0) Val.vnone = {v} →
        mergeResolve Val.vnone
          (observedVals ((mdGroups c2tbl "foo").getD 0 (Val.vnone, [])).2
            ((mdValIdxs c2tbl "foo").getD 0 0) Val.vnone) = MVal.mval v)
    ∧ (2 ≤ (mergedSet ((mdGroups c2tbl "foo").getD 0 (Val.vnone, [])).2
          ((mdValIdxs c2tbl "foo").getD 0 0) Val.vnone).card →
        mergeResolve Val.vnone
          (observedVals ((mdGroups c2tbl "foo").getD 0 (Val.vnone, [])).2
            ((mdValIdxs c2tbl "foo").getD 0 0) Val.vnone) =
          MVal.mconflict (mergedSet ((mdGroups c2tbl "foo").getD 0 (Val.vnone, [])).2
            ((mdValIdxs c2tbl "foo").getD 0 0) Val.vnone)) :=
  mergeduplicates_spec c2tbl "foo" Val.vnone 0 0 (by decide) (by decide)

/-- Whether the second character list occurs as a block at the front of
the first. -/
def startsWithChars : List Char → List Char → Bool
  | [], _ => true
  | _ :: _, [] => false
  | a :: as, b :: bs => a = b && startsWithChars as bs

/-- Whether sub occurs as a contiguous block anywhere in the list. -/
def containsChars (sub : List Char) : List Char → Bool
  | [] => startsWithChars sub []
  | b :: bs => startsWithChars sub (b :: bs) || containsChars sub bs

/-- Substring occurrence test for strings, written by structural
recursion so that it evaluates inside the kernel. -/
def strContains (hay sub : String) : Bool := containsChars sub.data hay.data

theorem startsWithChars_self_append :
    ∀ (sub ys : List Char), startsWithChars sub (sub ++ ys) = true := by
  intro sub
  induction sub with
  | nil => intro ys; rfl
  | cons a as ih =>
      intro ys
      simp [startsWithChars, ih]

theorem containsChars_mid :
    ∀ (xs sub ys : List Char), containsChars sub (xs ++ (sub ++ ys)) = true := by
  intro xs
  induction xs with
  | nil =>
      intro sub ys
      cases hsy : sub ++ ys with
      | nil =>
          have hsub : sub = [] := by
            cases sub with
            | nil => rfl
            | cons a as => simp at hsy
          simp [hsub, containsChars, startsWithChars]
      | cons b bs =>
          have := startsWithChars_self_append sub ys
          simp only [List.nil_append, containsChars, hsy]
          rw [← hsy, this]
          rfl
  | cons x xs2 ih =>
      intro sub ys
      simp only [List.cons_append, containsChars, List.append_eq,
        ih sub ys, Bool.or_true]

theorem strContains_mid (pre c post : String) :
    strContains (pre ++ c ++ post) c = true := by
  have hdata : (pre ++ c ++ post).data = pre.data ++ (c.data ++ post.data) := by
    simp [String.data_append]
  simp only [strContains, hdata]
  exact containsChars_mid pre.data c.data post.data

/-- C3 amended: rule normalisation maps a bare callable to (None, f), a
bare field name and a 1-tuple field name to (field, list), a 1-tuple
callable to (None, f), and a 2-tuple to itself verbatim; a sized rule of
any other shape raises, at first iteration and never at construction,
the descriptive error naming both the output column and the rule, while
an unsized rule (None, a number) raises a TypeError from len() that
does not name the column. -/
theorem aggregation_normalisation_spec (c s : String) (f : AggFunc)
    (a b : PyV) (n : Int) (l : List PyV) (src : Table) (key : Key)
    (m : List (String × RawAgg)) (e : String)
    (hother : (¬ ∃ s2, l = [PyV.pstr s2]) ∧ (¬ ∃ g, l = [PyV.pfn g]) ∧
      l.length ≠ 2)
    (herr : normaliseMapping (copyMapping m) = Except.error e) :
    normaliseRule c (RawAgg.rfn f) = Except.ok (PyV.pnone, PyV.pfn f)
    ∧ normaliseRule c (RawAgg.rstr s) = Except.ok (PyV.pstr s, PyV.pfn listAgg)
    ∧ normaliseRule c (RawAgg.rtup [PyV.pstr s]) =
        Except.ok (PyV.pstr s, PyV.pfn listAgg)
    ∧ normaliseRule c (RawAgg.rtup [PyV.pfn f]) =
        Except.ok (PyV.pnone, PyV.pfn f)
    ∧ normaliseRule c (RawAgg.rtup [a, b]) = Except.ok (a, b)
    ∧ normaliseRule c (RawAgg.rtup l) =
        Except.error (invalidAggMsg c (RawAgg.rtup l))
    ∧ strContains (invalidAggMsg c (RawAgg.rtup l)) c = true
    ∧ normaliseRule c RawAgg.rnone =
        Except.error "TypeError: object of type 'NoneType' has no len()"
    ∧ normaliseRule c (RawAgg.rint n) =
        Except.error "TypeError: object of type 'int' has no len()"
    ∧ (mkMultiAggregateView src key m).aggregation = m
    ∧ itermultiaggregate src key m = Except.error e := by
  rcases hother with ⟨h1, h2, h3⟩
  refine ⟨rfl, rfl, rfl, rfl, rfl, ?_, ?_, rfl, rfl, rfl, ?_⟩
  · match l with
    | [] => rfl
    | [PyV.pnone] => rfl
    | [PyV.pstr s2] => exact absurd ⟨s2, rfl⟩ h1
    | [PyV.pfn g] => exact absurd ⟨g, rfl⟩ h2
    | [PyV.pflds fs] => rfl
    | [PyV.pint n2] => rfl
    | [x, y] => exact absurd rfl h3
    | x :: y :: z :: rest => rfl
  · have hmsg : invalidAggMsg c (RawAgg.rtup l) =
        "invalid aggregation: '" ++ c ++ ("', " ++ reprRawAgg (RawAgg.rtup l)) := by
      simp only [invalidAggMsg]
      rw [String.append_assoc]
    rw [hmsg]
    exact strContains_mid "invalid aggregation: '" c
      ("', " ++ reprRawAgg (RawAgg.rtup l))
  · simp only [itermultiaggregate, herr, bind, Except.bind]

theorem aggregation_normalisation_spec_witness :
    normaliseRule "x" (RawAgg.rfn listAgg) =
      Except.ok (PyV.pnone, PyV.pfn listAgg)
    ∧ normaliseRule "x" (RawAgg.rstr "bar") =
        Except.ok (PyV.pstr "bar", PyV.pfn listAgg)
    ∧ normaliseRule "x" (RawAgg.rtup [PyV.pstr "bar"]) =
        Except.ok (PyV.pstr "bar", PyV.pfn listAgg)
    ∧ normaliseRule "x" (RawAgg.rtup [PyV.pfn listAgg]) =
        Except.ok (PyV.pnone, PyV.pfn listAgg)
    ∧ normaliseRule "x" (RawAgg.rtup [PyV.pnone, PyV.pfn listAgg]) =
        Except.ok (PyV.pnone, PyV.pfn listAgg)
    ∧ normaliseRule "x" (RawAgg.rtup []) =
        Except.error (invalidAggMsg "x" (RawAgg.rtup []))
    ∧ strContains (invalidAggMsg "x" (RawAgg.rtup [])) "x" = true
    ∧ normaliseRule "x" RawAgg.rnone =
        Except.error "TypeError: object of type 'NoneType' has no len()"
    ∧ normaliseRule "x" (RawAgg.rint 5) =
        Except.error "TypeError: object of type 'int' has no len()"
    ∧ (mkMultiAggregateView (Table.mk ["foo"] []) (Key.field "foo")
        [("x", RawAgg.rtup [])]).aggregation = [("x", RawAgg.rtup [])]
    ∧ itermultiaggregate (Table.mk ["foo"] []) (Key.field "foo")
        [("x", RawAgg.rtup [])] =
        Except.error (invalidAggMsg "x" (RawAgg.rtup [])) :=
  aggregation_normalisation_spec "x" "bar" listAgg PyV.pnone (PyV.pfn listAgg)
    5 [] (Table.mk ["foo"] []) (Key.field "foo") [("x", RawAgg.rtup [])]
    (invalidAggMsg "x" (RawAgg.rtup []))
    ⟨by simp, by simp, by simp⟩ rfl

/-- C3 counterexample: a rule that is a bare integer is a rule of
another shape, yet iterating the view raises the bare TypeError from
len(), which does not name the offending output column x. -/
theorem aggregation_unsized_rule_counterexample :
    itermultiaggregate (Table.mk ["foo"] []) (Key.field "foo")
        [("x", RawAgg.rint 5)] =
      Except.error "TypeError: object of type 'int' has no len()"
    ∧ strContains "TypeError: object of type 'int' has no len()" "x" = false :=
  ⟨rfl, rfl⟩

/-- The number of header field-index lookups one normalised output
column performs per group: none for a whole-row aggregator, one for a
single source field, one per field of a compound source. -/
def aggCost : PyV × PyV → Nat
  | (PyV.pnone, _) => 0
  | (PyV.pstr _, _) => 1
  | (PyV.pflds fs, _) => fs.length
  | _ => 0

theorem bind_ok_iff {α β : Type} (x : Except String α) (f : α → Except String β)
    (b : β) :
    (x >>= f) = Except.ok b ↔ ∃ a, x = Except.ok a ∧ f a = Except.ok b := by
  cases x with
  | error e => simp [Bind.bind, Except.bind]
  | ok a => simp [Bind.bind, Except.bind]

theorem pure_ok_iff {α : Type} (a b : α) :
    (pure a : Except String α) = Except.ok b ↔ a = b := by
  simp [pure, Except.pure]

theorem aggColumn_count (srcflds : List String) (rows : List Row)
    (na : PyV × PyV) (v : Val) (cnt : Nat)
    (h : aggColumn srcflds rows na = Except.ok (v, cnt)) :
    cnt = aggCost na := by
  rcases na with ⟨src, fnv⟩
  cases src with
  | pnone =>
      simp only [aggColumn] at h
      cases happ : applyAgg fnv (AggArg.rows rows) with
      | error e => rw [happ] at h; simp [Except.map] at h
      | ok w =>
          rw [happ] at h
          simp only [Except.map, Except.ok.injEq, Prod.mk.injEq] at h
          exact h.2.symm
  | pstr s =>
      simp only [aggColumn] at h
      rcases (bind_ok_iff _ _ _).mp h with ⟨idx, h1, h⟩
      rcases (bind_ok_iff _ _ _).mp h with ⟨vals, h2, h⟩
      rcases (bind_ok_iff _ _ _).mp h with ⟨w, h3, h⟩
      rcases (pure_ok_iff _ _).mp h with h
      exact (congrArg Prod.snd h).symm
  | pfn g => simp [aggColumn] at h
  | pflds fs =>
      simp only [aggColumn] at h
      rcases (bind_ok_iff _ _ _).mp h with ⟨idxs, h1, h⟩
      rcases (bind_ok_iff _ _ _).mp h with ⟨ts, h2, h⟩
      rcases (bind_ok_iff _ _ _).mp h with ⟨w, h3, h⟩
      rcases (pure_ok_iff _ _).mp h with h
      exact (congrArg Prod.snd h).symm
  | pint n => simp [aggColumn] at h

theorem aggCells_count (srcflds : List String) (rows : List Row) :
    ∀ (norm : List (String × (PyV × PyV))) (cells : List Val) (cnt : Nat),
      aggCells srcflds rows norm = Except.ok (cells, cnt) →
      cnt = (norm.map (fun p => aggCost p.2)).sum := by
  intro norm
  induction norm with
  | nil =>
      intro cells cnt h
      simp only [aggCells, Except.ok.injEq, Prod.mk.injEq] at h
      simp [← h.2]
  | cons p rest ih =>
      intro cells cnt h
      rcases p with ⟨c0, na⟩
      simp only [aggCells] at h
      rcases (bind_ok_iff _ _ _).mp h with ⟨vc, h1, h⟩
      rcases (bind_ok_iff _ _ _).mp h with ⟨rest2, h2, h⟩
      rcases (pure_ok_iff _ _).mp h with h
      have hcnt : cnt = vc.2 + rest2.2 := (congrArg Prod.snd h).symm
      rw [hcnt, aggColumn_count srcflds rows na vc.1 vc.2 (by rw [← h1]),
        ih rest2.1 rest2.2 (by rw [← h2])]
      simp

theorem multiaggregate_groups_count (srcflds : List String)
    (norm : List (String × (PyV × PyV))) :
    ∀ (gs : List (Val × List Row)) (rcs : List (Row × Nat)),
      gs.mapM (fun kg => do
        let cc ← aggCells srcflds kg.2 norm
        return ((kg.1 :: cc.1 : Row), cc.2)) = Except.ok rcs →
      (rcs.map Prod.snd).sum =
        gs.length * (norm.map (fun p => aggCost p.2)).sum := by
  intro gs
  induction gs with
  | nil =>
      intro rcs h
      simp only [List.mapM_nil] at h
      rcases (pure_ok_iff _ _).mp h with h
      simp [← h]
  | cons kg gs2 ih =>
      intro rcs h
      rw [List.mapM_cons] at h
      rcases (bind_ok_iff _ _ _).mp h with ⟨y, hy, h⟩
      rcases (bind_ok_iff _ _ _).mp h with ⟨ys, hys, h⟩
      rcases (pure_ok_iff _ _).mp h with h
      rcases (bind_ok_iff _ _ _).mp hy with ⟨cc, h1, hy⟩
      rcases (pure_ok_iff _ _).mp hy with hy
      rw [← h, ← hy]
      simp only [List.map_cons, List.sum_cons, ih ys hys, List.length_cons]
      rw [aggCells_count srcflds kg.2 norm cc.1 cc.2 (by rw [← h1])]
      ring

/-- C8 amended: the header field-index resolution of the multi-column
aggregation runs once per group per output column, not once per output
column: a successful iteration performs exactly
(number of groups) * (sum of the per-column lookup costs) lookups, a
total that grows with the number of groups. -/
theorem multiaggregate_lookup_count (src : Table) (key : Key)
    (agg : List (String × RawAgg)) (tbl : Table) (n : Nat)
    (norm : List (String × (PyV × PyV)))
    (hn : normaliseMapping (copyMapping agg) = Except.ok norm)
    (h : itermultiaggregate src key agg = Except.ok (tbl, n)) :
    n = (rowgroupby src key).length * (norm.map (fun p => aggCost p.2)).sum := by
  simp only [itermultiaggregate] at h
  rcases (bind_ok_iff _ _ _).mp h with ⟨norm0, hn0, h⟩
  rw [hn] at hn0
  injection hn0 with hnorm
  subst hnorm
  rcases (bind_ok_iff _ _ _).mp h with ⟨rcs, h2, h⟩
  rcases (pure_ok_iff _ _).mp h with h
  have hn2 : n = (rcs.map Prod.snd).sum := (congrArg Prod.snd h).symm
  rw [hn2]
  exact multiaggregate_groups_count src.header norm (rowgroupby src key) rcs h2

/-- Integer sum as an aggregation function, for concrete instances. -/
def pySum : AggFunc
  | AggArg.vals vs => Val.vint (vs.foldl
      (fun acc v => acc + (match v with | Val.vint i => i | _ => 0)) 0)
  | AggArg.rows _ => Val.vnone
  | AggArg.tups _ => Val.vnone

/-- Concrete presorted two-group source for C8. -/
def c8tbl : Table :=
  Table.mk ["foo", "bar"] [[Val.vstr "a", Val.vint 1], [Val.vstr "b", Val.vint 2]]

/-- One-column aggregation spec over the bar field for C8. -/
def c8agg : List (String × RawAgg) :=
  [("sumbar", RawAgg.rtup [PyV.pstr "bar", PyV.pfn pySum])]

/-- C8 counterexample: one output column over two groups performs two
header field-index lookups, so the lookup count is not bounded by the
number of output column definitions. -/
theorem multiaggregate_lookup_counterexample :
    itermultiaggregate c8tbl (Key.field "foo") c8agg =
      Except.ok (Table.mk ["foo", "sumbar"]
        [[Val.vstr "a", Val.vint 1], [Val.vstr "b", Val.vint 2]], 2)
    ∧ c8agg.length = 1 :=
  ⟨rfl, rfl⟩

theorem multiaggregate_lookup_count_witness :
    2 = (rowgroupby c8tbl (Key.field "foo")).length *
      (([("sumbar", (PyV.pstr "bar", PyV.pfn pySum))].map
        (fun p => aggCost p.2)).sum) :=
  multiaggregate_lookup_count c8tbl (Key.field "foo") c8agg
    (Table.mk ["foo", "sumbar"]
      [[Val.vstr "a", Val.vint 1], [Val.vstr "b", Val.vint 2]]) 2
    [("sumbar", (PyV.pstr "bar", PyV.pfn pySum))] rfl rfl

theorem copyMapping_eq (m : List (String × RawAgg)) : copyMapping m = m := by
  induction m with
  | nil => rfl
  | cons p rest ih =>
      simp only [copyMapping, List.foldr_cons] at ih ⊢
      rw [ih]

theorem normaliseMapping_names :
    ∀ (m : List (String × RawAgg)) (norm : List (String × (PyV × PyV))),
      normaliseMapping m = Except.ok norm →
      norm.map Prod.fst = m.map Prod.fst := by
  intro m
  induction m with
  | nil =>
      intro norm h
      rcases (pure_ok_iff _ _).mp h with h
      rw [← h]
      rfl
  | cons p rest ih =>
      intro norm h
      rw [normaliseMapping, List.mapM_cons] at h
      rcases (bind_ok_iff _ _ _).mp h with ⟨y, hy, h⟩
      rcases (bind_ok_iff _ _ _).mp h with ⟨ys, hys, h⟩
      rcases (pure_ok_iff _ _).mp h with h
      have hyname : y.1 = p.1 := by
        cases hnr : normaliseRule p.1 p.2 with
        | error e => rw [hnr] at hy; simp [Except.map] at hy
        | ok nr =>
            rw [hnr] at hy
            simp only [Except.map, Except.ok.injEq] at hy
            rw [← hy]
      rw [← h, List.map_cons, List.map_cons, hyname, ih ys hys]

theorem itermultiaggregate_header (src : Table) (key : Key)
    (agg : List (String × RawAgg)) (tbl : Table) (n : Nat)
    (h : itermultiaggregate src key agg = Except.ok (tbl, n)) :
    ∃ norm, normaliseMapping (copyMapping agg) = Except.ok norm ∧
      tbl.header = keyHeader key ++ norm.map Prod.fst := by
  simp only [itermultiaggregate] at h
  rcases (bind_ok_iff _ _ _).mp h with ⟨norm0, hn0, h⟩
  rcases (bind_ok_iff _ _ _).mp h with ⟨rcs, h2, h⟩
  rcases (pure_ok_iff _ _).mp h with h
  exact ⟨norm0, hn0, (congrArg (fun p => (Prod.fst p).header) h).symm⟩

/-- C10: the stored aggregation mapping of a multi-aggregate view is
never rewritten by iterating: one iteration, seen as a state transformer
on the view mapping, returns the mapping unchanged, because it copies
the mapping and normalises only the copy (and normalisation genuinely
rewrites rules, for instance a bare field name).  Builder-style
assignment of a rule to a fresh output column appends it to the
mapping, and an iteration that starts after the assignment sees the new
column (its output header ends with the new column name).  In this
model an iteration is an atomic function of the mapping at iteration
start, so a later assignment cannot alter an earlier iteration, only
subsequent ones. -/
theorem multiaggregate_view_state_spec (v : MultiAggregateView) (c s : String)
    (r : RawAgg) (hc : c ∉ v.aggregation.map Prod.fst) :
    (itermultiaggregateSt v).1 = v.aggregation
    ∧ copyMapping v.aggregation = v.aggregation
    ∧ normaliseMapping [(c, RawAgg.rstr s)] =
        Except.ok [(c, (PyV.pstr s, PyV.pfn listAgg))]
    ∧ setitemAgg v.aggregation c r = v.aggregation ++ [(c, r)]
    ∧ itermultiaggregate v.source v.key (setitemAgg v.aggregation c r) =
        itermultiaggregate v.source v.key (v.aggregation ++ [(c, r)])
    ∧ (itermultiaggregateSt (MultiAggregateView.mk v.source v.key
        (setitemAgg v.aggregation c r))).1 = setitemAgg v.aggregation c r
    ∧ (∀ (tbl : Table) (n : Nat),
        itermultiaggregate v.source v.key (setitemAgg v.aggregation c r) =
          Except.ok (tbl, n) →
        tbl.header = keyHeader v.key ++ (v.aggregation.map Prod.fst ++ [c])) := by
  have hset : setitemAgg v.aggregation c r = v.aggregation ++ [(c, r)] := by
    rw [setitemAgg, if_neg hc]
  refine ⟨rfl, copyMapping_eq v.aggregation, rfl, hset, by rw [hset], rfl, ?_⟩
  intro tbl n h
  rcases itermultiaggregate_header v.source v.key _ tbl n h with ⟨norm, hn, hh⟩
  rw [copyMapping_eq] at hn
  have hnames := normaliseMapping_names _ norm hn
  rw [hh, hnames, hset, List.map_append]
  rfl

/-- Concrete view for the C10 witness. -/
def c10view : MultiAggregateView :=
  MultiAggregateView.mk c8tbl (Key.field "foo") [("a0", RawAgg.rfn listAgg)]

theorem multiaggregate_view_state_spec_witness :
    (itermultiaggregateSt c10view).1 = c10view.aggregation
    ∧ copyMapping c10view.aggregation = c10view.aggregation
    ∧ normaliseMapping [("x", RawAgg.rstr "bar")] =
        Except.ok [("x", (PyV.pstr "bar", PyV.pfn listAgg))]
    ∧ setitemAgg c10view.aggregation "x" (RawAgg.rstr "bar") =
        c10view.aggregation ++ [("x", RawAgg.rstr "bar")]
    ∧ itermultiaggregate c10view.source c10view.key
        (setitemAgg c10view.aggregation "x" (RawAgg.rstr "bar")) =
        itermultiaggregate c10view.source c10view.key
          (c10view.aggregation ++ [("x", RawAgg.rstr "bar")])
    ∧ (itermultiaggregateSt (MultiAggregateView.mk c10view.source c10view.key
        (setitemAgg c10view.aggregation "x" (RawAgg.rstr "bar")))).1 =
        setitemAgg c10view.aggregation "x" (RawAgg.rstr "bar")
    ∧ (∀ (tbl : Table) (n : Nat),
        itermultiaggregate c10view.source c10view.key
          (setitemAgg c10view.aggregation "x" (RawAgg.rstr "bar")) =
          Except.ok (tbl, n) →
        tbl.header = keyHeader c10view.key ++
          (c10view.aggregation.map Prod.fst ++ ["x"])) :=
  multiaggregate_view_state_spec c10view "x" "bar" (RawAgg.rstr "bar")
    (by decide)

/-- C1: iterating rowreduce(T, K, R) yields the given fields as header
when provided and the (sorted) source header otherwise, then exactly one
output row per distinct value of K present in T, in sorted key order,
each output row being the tuple returned by R on the key and the group
row sequence; with the header peeked and pushed back, the instrumented
stream is traversed exactly once (source reads = stream length). -/
theorem rowreduce_spec (t : Table) (key : Key)
    (reducer : Val → List Row → Row) (fields : Option (List String)) :
    rowreduce t key reducer fields false = Table.mk (fields.getD t.header)
      ((rowgroupby (sort t key false) key).map (fun kg => reducer kg.1 kg.2))
    ∧ ((rowgroupby (sort t key false) key).map Prod.fst).Nodup
    ∧ List.Pairwise (fun k1 k2 => valLt k1 k2 = true)
        ((rowgroupby (sort t key false) key).map Prod.fst)
    ∧ (∀ v, v ∈ (rowgroupby (sort t key false) key).map Prod.fst ↔
        v ∈ t.rows.map (keyGet key t.header))
    ∧ iterrowreduceP (PIter.mk [] (streamOf (sort t key false)) 0) key reducer =
        some ((headerRow t.header,
          (rowreduce t key reducer none false).rows),
          (streamOf (sort t key false)).length) := by
  have hs : List.Pairwise
      (fun a b => valLe (keyGet key t.header a) (keyGet key t.header b) = true)
      (sort t key false).rows := by
    have := pairwise_insSort
      (fun a b => valLe (keyGet key t.header a) (keyGet key t.header b))
      (fun a b => valLe_total _ _)
      (fun a b c h1 h2 => valLe_trans _ _ _ h1 h2) t.rows
    simpa [sort] using this
  refine ⟨rfl, ?_, ?_, ?_, ?_⟩
  · exact groupRuns_keys_nodup (keyGet key t.header) (sort t key false).rows hs
  · exact groupRuns_keys_pairwise_lt (keyGet key t.header)
      (sort t key false).rows hs
  · intro v
    show v ∈ (groupRuns (keyGet key t.header) (sort t key false).rows).map
      Prod.fst ↔ v ∈ t.rows.map (keyGet key t.header)
    rw [groupRuns_keys_iff]
    constructor
    · intro hv
      rcases List.mem_map.mp hv with ⟨a, ha, hfa⟩
      have ha2 : a ∈ t.rows := by
        have hperm : List.Perm (sort t key false).rows t.rows := by
          simpa [sort] using insSort_perm
            (fun a b => valLe (keyGet key t.header a) (keyGet key t.header b))
            t.rows
        exact hperm.mem_iff.mp ha
      exact hfa ▸ List.mem_map_of_mem _ ha2
    · intro hv
      rcases List.mem_map.mp hv with ⟨a, ha, hfa⟩
      have ha2 : a ∈ (sort t key false).rows := by
        have hperm : List.Perm (sort t key false).rows t.rows := by
          simpa [sort] using insSort_perm
            (fun a b => valLe (keyGet key t.header a) (keyGet key t.header b))
            t.rows
        exact hperm.mem_iff.mpr ha
      exact hfa ▸ List.mem_map_of_mem _ ha2
  · show iterrowreduceP
      (PIter.mk [] (headerRow t.header :: (sort t key false).rows) 0) key
      reducer = _
    rw [iterrowreduceP]
    have hpeek : iterpeekP (PIter.mk []
        (headerRow t.header :: (sort t key false).rows) 0) =
        some (headerRow t.header,
          PIter.mk [headerRow t.header] (sort t key false).rows 1) := rfl
    rw [hpeek]
    dsimp only []
    rw [drainP_buf1]
    dsimp only []
    simp only [unheader_headerRow]
    rw [streamOf]
    simp only [List.length_cons, Option.some.injEq, Prod.mk.injEq]
    refine ⟨⟨trivial, rfl⟩, by omega⟩

/-- After a stable pre-sort by vle and a stable key sort, the first row
of each key group is vle-least among all input rows with its key. -/
theorem sortfirst_attains (f : Row → Val) (vle : Row → Row → Bool)
    (total2 : ∀ a b, vle a b = true ∨ vle b a = true)
    (trans2 : ∀ a b c, vle a b = true → vle b c = true → vle a c = true)
    (rows0 : List Row) (r r2 : Row)
    (hr : r ∈ (groupRuns f (insSort (fun a b => valLe (f a) (f b))
        (insSort vle rows0))).map (fun kg => kg.2.headD []))
    (hr2 : r2 ∈ rows0) (hk : f r2 = f r) :
    r ∈ rows0 ∧ vle r r2 = true := by
  have hs2 : List.Pairwise
      (fun a b => (fun a b => valLe (f a) (f b)) a b = true)
      (insSort (fun a b => valLe (f a) (f b)) (insSort vle rows0)) :=
    pairwise_insSort (fun a b => valLe (f a) (f b))
      (fun a b => valLe_total (f a) (f b))
      (fun a b c h1 h2 => valLe_trans (f a) (f b) (f c) h1 h2)
      (insSort vle rows0)
  rcases List.mem_map.mp hr with ⟨kg, hkg, hhead⟩
  have hgfilter : kg.2 = (insSort (fun a b => valLe (f a) (f b))
      (insSort vle rows0)).filter (fun a => f a == kg.1) :=
    groupRuns_eq_filter f _ hs2 kg hkg
  have hp : ∀ a b : Row, (f a == kg.1) = true → (f b == kg.1) = true →
      (fun a b => valLe (f a) (f b)) a b = true := by
    intro a b ha hb
    have ha2 : f a = kg.1 := by simpa using ha
    have hb2 : f b = kg.1 := by simpa using hb
    simp only
    rw [ha2, hb2]
    exact valLe_refl kg.1
  have hgf : kg.2 = (insSort vle rows0).filter (fun a => f a == kg.1) :=
    hgfilter.trans (filter_insSort _ _ hp (insSort vle rows0))
  have hne := groupRuns_nonempty f _ kg hkg
  cases hfe : (insSort vle rows0).filter (fun a => f a == kg.1) with
  | nil => exact absurd (hgf.trans hfe) hne
  | cons x xs =>
      have hrx : r = x := by
        rw [← hhead, hgf, hfe]
        rfl
      have hxmem : x ∈ (insSort vle rows0).filter (fun a => f a == kg.1) := by
        rw [hfe]
        exact List.mem_cons_self x xs
      have hrrows0 : r ∈ rows0 := by
        rw [hrx]
        exact (mem_insSort vle rows0 x).mp (List.mem_of_mem_filter hxmem)
      refine ⟨hrrows0, ?_⟩
      have hrkg : r ∈ kg.2 := by
        rw [hgf, hfe, hrx]
        exact List.mem_cons_self x xs
      have hfr : f r = kg.1 := groupRuns_key_eq f _ kg hkg r hrkg
      have hpr2 : (f r2 == kg.1) = true := by
        simp [hk, hfr]
      have hr2filter : r2 ∈ (insSort vle rows0).filter (fun a => f a == kg.1) :=
        List.mem_filter.mpr ⟨(mem_insSort vle rows0 r2).mpr hr2, hpr2⟩
      rw [hfe] at hr2filter
      have hs1 : List.Pairwise (fun a b => vle a b = true) (insSort vle rows0) :=
        pairwise_insSort vle total2 trans2 rows0
      have hsf : List.Pairwise (fun a b => vle a b = true) (x :: xs) := by
        rw [← hfe]
        exact List.Pairwise.sublist (List.filter_sublist (insSort vle rows0)) hs1
      rcases List.mem_cons.mp hr2filter with h2 | h2
      · rw [hrx, h2]
        rcases total2 x x with hxx | hxx <;> exact hxx
      · rw [hrx]
        exact (List.pairwise_cons.mp hsf).1 r2 h2

/-- C7: groupselectmin is literally sort-ascending-by-value followed by
first-row-per-key-group, groupselectmax the same with a descending sort,
and with the stable sort collaborator the selected row of each group is
a row of the table attaining the group minimum (resp. maximum) of the
value field — the literal sort-direction-plus-first-row behaviour, not
the inverted wording of the docstrings. -/
theorem groupselect_minmax_spec (t : Table) (key : Key) (value : String)
    (r r2 s s2 : Row)
    (hr : r ∈ (groupselectmin t key value).rows)
    (hr2 : r2 ∈ t.rows)
    (hkr : keyGet key t.header r2 = keyGet key t.header r)
    (hs : s ∈ (groupselectmax t key value).rows)
    (hs2 : s2 ∈ t.rows)
    (hks : keyGet key t.header s2 = keyGet key t.header s) :
    groupselectmin t key value =
      groupselectfirst (sort t (Key.field value) false) key
    ∧ groupselectmax t key value =
      groupselectfirst (sort t (Key.field value) true) key
    ∧ r ∈ t.rows
    ∧ valLe (keyGet (Key.field value) t.header r)
        (keyGet (Key.field value) t.header r2) = true
    ∧ s ∈ t.rows
    ∧ valLe (keyGet (Key.field value) t.header s2)
        (keyGet (Key.field value) t.header s) = true := by
  have hmin := sortfirst_attains (keyGet key t.header)
    (fun a b => valLe (keyGet (Key.field value) t.header a)
      (keyGet (Key.field value) t.header b))
    (fun a b => valLe_total _ _)
    (fun a b c h1 h2 => valLe_trans _ _ _ h1 h2)
    t.rows r r2 hr hr2 hkr
  have hmax := sortfirst_attains (keyGet key t.header)
    (fun a b => valLe (keyGet (Key.field value) t.header b)
      (keyGet (Key.field value) t.header a))
    (fun a b => valLe_total _ _)
    (fun a b c h1 h2 => valLe_trans _ _ _ h2 h1)
    t.rows s s2 hs hs2 hks
  exact ⟨rfl, rfl, hmin.1, hmin.2, hmax.1, hmax.2⟩

/-- Concrete table for the C7 witness: two rows under key a with values
3 and 1, one row under key b. -/
def c7tbl : Table :=
  Table.mk ["k", "v"]
    [[Val.vstr "a", Val.vint 3], [Val.vstr "a", Val.vint 1],
     [Val.vstr "b", Val.vint 2]]

theorem groupselect_minmax_spec_witness :
    groupselectmin c7tbl (Key.field "k") "v" =
      groupselectfirst (sort c7tbl (Key.field "v") false) (Key.field "k")
    ∧ groupselectmax c7tbl (Key.field "k") "v" =
      groupselectfirst (sort c7tbl (Key.field "v") true) (Key.field "k")
    ∧ [Val.vstr "a", Val.vint 1] ∈ c7tbl.rows
    ∧ valLe (keyGet (Key.field "v") c7tbl.header [Val.vstr "a", Val.vint 1])
        (keyGet (Key.field "v") c7tbl.header [Val.vstr "a", Val.vint 3]) = true
    ∧ [Val.vstr "a", Val.vint 3] ∈ c7tbl.rows
    ∧ valLe (keyGet (Key.field "v") c7tbl.header [Val.vstr "a", Val.vint 1])
        (keyGet (Key.field "v") c7tbl.header [Val.vstr "a", Val.vint 3]) = true :=
  groupselect_minmax_spec c7tbl (Key.field "k") "v"
    [Val.vstr "a", Val.vint 1] [Val.vstr "a", Val.vint 3]
    [Val.vstr "a", Val.vint 3] [Val.vstr "a", Val.vint 1]
    (by decide) (by decide) (by decide) (by decide) (by decide) (by decide)

end Petl
